import Mathlib

/-!
# Verification of the bfv-api standings / table core

Shallow embedding of the tie-resolution core of the repository:
* `src/bfv_api/standings.py` (the authoritative implementation), and
* `src/table.py` (an earlier, almost identical copy kept in the repo root).

Modelling conventions:
* Python `int` is modelled by `Int` (unbounded).
* Python strings are modelled by `String`; the five-character uuid tokens
  (`uuid.uuid4().hex[:5]`) are modelled as `List Char`, and the random draw
  is abstracted into an explicit generator parameter `gen : String → List Char`
  (one token per team name; the spec treats the token as an arbitrary but
  fixed per-team value).
* Python `sorted(key=k, reverse=True)` is a stable descending sort; it is
  modelled by an insertion sort that is provably the stable descending sort
  (equal keys keep input order).
* Python `set(matches)` (deduplication of `Match` named tuples) is modelled
  by first-occurrence deduplication `pyDedup`; set iteration order is an
  implementation detail of CPython, the properties proved below do not
  depend on the particular order chosen.
* `raise ValueError(...)` is modelled by `Except String`.
* `logger.warning` / `print` diagnostics are side effects outside the
  result value and are not modelled.
-/

/-- The sixteen lowercase hexadecimal digit characters, in increasing
code-point (and value) order.  `uuid.uuid4().hex` only produces these. -/
def hexChars : List Char := "0123456789abcdef".toList

/-- Whether a character is a lowercase hexadecimal digit. -/
def isHexDigit (c : Char) : Bool := hexChars.contains c

/-- Numeric value of a hexadecimal digit, as in Python `int(s, 16)`. -/
def hexVal (c : Char) : Nat :=
  if c = '0' then 0 else if c = '1' then 1 else if c = '2' then 2
  else if c = '3' then 3 else if c = '4' then 4 else if c = '5' then 5
  else if c = '6' then 6 else if c = '7' then 7 else if c = '8' then 8
  else if c = '9' then 9 else if c = 'a' then 10 else if c = 'b' then 11
  else if c = 'c' then 12 else if c = 'd' then 13 else if c = 'e' then 14
  else 15

/-- Python `int(s, 16)` on a string of hexadecimal digits. -/
def hexToNat (s : List Char) : Nat := s.foldl (fun acc c => 16 * acc + hexVal c) 0

/-- CPython string comparison `s < t`: lexicographic by code point. -/
def strLt : List Char → List Char → Bool
  | [], [] => false
  | [], _ :: _ => true
  | _ :: _, [] => false
  | c :: cs, d :: ds => if c < d then true else if d < c then false else strLt cs ds

/-- A well-formed uuid token: exactly five lowercase hexadecimal digits,
as produced by `uuid.uuid4().hex[:5]`. -/
def isHex5 (s : List Char) : Prop := s.length = 5 ∧ ∀ c ∈ s, isHexDigit c = true

instance (s : List Char) : Decidable (isHex5 s) := by
  unfold isHex5; infer_instance

/-- `Match` named tuple of both source files: two team names, two scores and
two fairplay values.  Named-tuple equality is field-wise equality. -/
structure Match where
  home : String
  guest : String
  home_score : Int
  guest_score : Int
  home_fairplay : Int
  guest_fairplay : Int
deriving DecidableEq, Repr

/-- `Team` dataclass of both source files. All Python ints are `Int`; the
uuid token is the five-hex-character string. -/
structure Team where
  name : String
  games : Int := 0
  points : Int := 0
  wins : Int := 0
  draws : Int := 0
  losses : Int := 0
  goals_for : Int := 0
  away_goals_for : Int := 0
  goals_against : Int := 0
  fairplay : Int := 0
  «matches» : List Match := []
  uuid : List Char := []
deriving DecidableEq, Repr

/-- Placeholder team used to totalise dictionary lookups whose key is, in all
reachable states, present (Python would raise `KeyError` otherwise). -/
def defaultTeam : Team := { name := "" }

instance : Inhabited Team := ⟨defaultTeam⟩

/-- The `Tiebreaker` enum of `standings.py` (named `OrderType` in `table.py`,
with the same members in the same order). -/
inductive Tiebreaker where
  | POINTS
  | HEAD_TO_HEAD
  | GOAL_DIFFERENCE
  | GOALS_FOR
  | WINS
  | AWAY_GOALS_FOR
  | RANDOM
deriving DecidableEq, Repr

/-- Iterating the enum class itself (the default `tiebreakers` argument of
`show_standings` / `show_table`) yields the members in definition order. -/
def allTiebreakers : List Tiebreaker :=
  [.POINTS, .HEAD_TO_HEAD, .GOAL_DIFFERENCE, .GOALS_FOR, .WINS, .AWAY_GOALS_FOR, .RANDOM]

/-- Default special sequence of `show_standings` / `show_table`. -/
def defaultSpecial : List Tiebreaker := [.POINTS, .GOAL_DIFFERENCE, .GOALS_FOR]

/-! ## Generic list helpers modelling the Python building blocks -/

/-- Insert `a` into `l` in front of the first element `b` with `r a b`.
`pySortedRev r` below is then the unique stable sort w.r.t. the (total,
transitive) relation `r`; with `r a b := key b ≤ key a` it models CPython
`sorted(l, key=key, reverse=True)` (stable descending sort). -/
def pyInsert (r : Team → Team → Bool) (a : Team) : List Team → List Team
  | [] => [a]
  | b :: l => if r a b then a :: b :: l else b :: pyInsert r a l

/-- Stable sort w.r.t. `r`; models `sorted(..., reverse=True)`, see
`pyInsert`. -/
def pySortedRev (r : Team → Team → Bool) (l : List Team) : List Team :=
  l.foldr (pyInsert r) []

/-- One step of the grouping loop of `sort_group` (lines 108-113 of
`standings.py`, lines 96-101 of `table.py`): start a new group when the key
differs from the key of the first element of the last group, else append to
the last group.  Groups are never empty; the inner `none` case is
unreachable and mirrors the Python expression `groups[-1][0]`. -/
def addToGroups {κ : Type} [DecidableEq κ] (key : Team → κ)
    (groups : List (List Team)) (t : Team) : List (List Team) :=
  match groups.getLast? with
  | none => groups ++ [[t]]
  | some g =>
    match g.head? with
    | none => groups ++ [[t]]
    | some g0 => if key g0 ≠ key t then groups ++ [[t]] else groups.dropLast ++ [g ++ [t]]

/-- The grouping loop of `sort_group` over an already sorted list. -/
def groupByValue {κ : Type} [DecidableEq κ] (key : Team → κ) (l : List Team) :
    List (List Team) :=
  l.foldl (addToGroups key) []

/-- Recursive characterisation of `groupByValue`: split off the maximal run
of elements sharing the first element's key, then recurse. -/
def groupsOf {κ : Type} [DecidableEq κ] (key : Team → κ) : List Team → List (List Team)
  | [] => []
  | t :: ts =>
    (t :: ts.takeWhile (fun u => key u = key t)) ::
      groupsOf key (ts.dropWhile (fun u => key u = key t))
termination_by l => l.length
decreasing_by
  simp only [List.length_cons]
  exact Nat.lt_succ_of_le (List.Sublist.length_le (List.dropWhile_sublist _))

theorem groupsOf_nil {κ : Type} [DecidableEq κ] (key : Team → κ) :
    groupsOf key [] = [] := by
  rw [groupsOf.eq_def]

theorem groupsOf_cons {κ : Type} [DecidableEq κ] (key : Team → κ) (t : Team)
    (ts : List Team) :
    groupsOf key (t :: ts) =
      (t :: ts.takeWhile (fun u => key u = key t)) ::
        groupsOf key (ts.dropWhile (fun u => key u = key t)) := by
  rw [groupsOf.eq_def]

/-- First-occurrence deduplication; models the Python `set(matches)`
construction (membership-wise; CPython set iteration order is an
implementation detail on which no proved property depends). -/
def pyDedup (l : List Match) : List Match :=
  l.foldl (fun acc m => if m ∈ acc then acc else acc ++ [m]) []

/-- Lookup in the dictionary `orig_teams = {team.name: team for team in teams}`:
for duplicate names the later entry wins; the default is unreachable in the
states in which the code performs the lookup (Python would raise `KeyError`). -/
def lookupTeam (teams : List Team) (n : String) : Team :=
  ((teams.filter (fun t => t.name = n)).getLast?).getD defaultTeam

/-- Flatten a resolver result (mixed teams and tied groups) into the list of
teams it carries, in order. -/
def flatRes (res : List (Team ⊕ List Team)) : List Team :=
  res.foldr (fun e acc => (match e with | .inl t => [t] | .inr g => g) ++ acc) []

/-! ## Aggregation (`create_standings` in `standings.py` lines 149-182,
`create_table` in `table.py` lines 128-161 — the two loop bodies are
textually identical; each namespace below defines its own fold over this
shared per-match step). -/

/-- A freshly created `Team(name)` with a fresh uuid token drawn from the
generator. -/
def mkTeam (gen : String → List Char) (n : String) : Team :=
  { name := n, uuid := gen n }

/-- Apply `f` to every team named `n` (the dictionary holds at most one). -/
def updTeam (l : List Team) (n : String) (f : Team → Team) : List Team :=
  l.map (fun t => if t.name = n then f t else t)

/-- All updates the aggregation loop applies to the home side of `m`:
the score-comparison branch plus the unconditional counters. -/
def homeUpdate (m : Match) (t : Team) : Team :=
  let t :=
    if m.home_score > m.guest_score then
      { t with points := t.points + 3, wins := t.wins + 1 }
    else if m.home_score < m.guest_score then
      { t with losses := t.losses + 1 }
    else
      { t with points := t.points + 1, draws := t.draws + 1 }
  { t with games := t.games + 1,
           goals_for := t.goals_for + m.home_score,
           goals_against := t.goals_against + m.guest_score,
           fairplay := t.fairplay + m.home_fairplay,
           «matches» := t.«matches» ++ [m] }

/-- All updates the aggregation loop applies to the guest side of `m`. -/
def guestUpdate (m : Match) (t : Team) : Team :=
  let t :=
    if m.home_score > m.guest_score then
      { t with losses := t.losses + 1 }
    else if m.home_score < m.guest_score then
      { t with points := t.points + 3, wins := t.wins + 1 }
    else
      { t with points := t.points + 1, draws := t.draws + 1 }
  { t with games := t.games + 1,
           goals_for := t.goals_for + m.guest_score,
           away_goals_for := t.away_goals_for + m.guest_score,
           goals_against := t.goals_against + m.home_score,
           fairplay := t.fairplay + m.guest_fairplay,
           «matches» := t.«matches» ++ [m] }

/-- `setdefault`: fetch the team named `n`, creating and appending it first
when absent (dict insertion order = list order). -/
def ensureTeam (gen : String → List Char) (l : List Team) (n : String) : List Team :=
  if l.any (fun t => t.name = n) then l else l ++ [mkTeam gen n]

/-- One iteration of the aggregation loop: `setdefault` home then guest, then
apply the home-side and guest-side updates.  When `m.home = m.guest` both
updates hit the same dictionary entry, exactly as in Python where `home` and
`guest` alias the same object. -/
def aggStep (gen : String → List Char) (l : List Team) (m : Match) : List Team :=
  let l := ensureTeam gen l m.home
  let l := ensureTeam gen l m.guest
  let l := updTeam l m.home (homeUpdate m)
  updTeam l m.guest (guestUpdate m)

namespace StandingsPy

/-! ## `src/bfv_api/standings.py` -/

/-- `create_standings` (lines 149-182): fold the aggregation step over the
matches; `list(standings.values())` is the insertion-ordered team list. -/
def createStandings (gen : String → List Char) (ms : List Match) : List Team :=
  ms.foldl (aggStep gen) []

/-- The `get_value` closure of `sort_group` (lines 92-105).  `HEAD_TO_HEAD`
is unreachable there (the function returns earlier on that rule); the final
`raise ValueError("Invalid order type")` is dead code because every enum
member is handled.  `RANDOM` is `int(team.uuid, 16)`. -/
def getValue : Tiebreaker → Team → Int
  | .POINTS, t => t.points
  | .GOAL_DIFFERENCE, t => t.goals_for - t.goals_against
  | .GOALS_FOR, t => t.goals_for
  | .WINS, t => t.wins
  | .AWAY_GOALS_FOR, t => t.away_goals_for
  | .RANDOM, t => (hexToNat t.uuid : Int)
  | .HEAD_TO_HEAD, _ => 0

/-- The metric part of `sort_group` (lines 107-114): stable descending sort
by `get_value`, then group adjacent equal values. -/
def sortGroupMetric (key : Team → Int) (teams : List Team) : List (List Team) :=
  groupByValue key (pySortedRev (fun a b => decide (key b ≤ key a)) teams)

/-- Error message of the `HEAD_TO_HEAD`-without-special `ValueError`
(lines 66-69). -/
def noSpecialMsg : String :=
  "No tiebreaker given for head to head sort. Provide tiebreaker or disable head to head sort."

/-- `sort_group(teams, type_, None)` — the shape in which `sort_group` is
reached from the inner (special-sequence) resolution, where no `special`
argument is forwarded: `HEAD_TO_HEAD` immediately raises, every other rule
runs the metric sort. -/
def sortGroupBasic (teams : List Team) (rule : Tiebreaker) :
    Except String (List (List Team)) :=
  match rule with
  | .HEAD_TO_HEAD => .error noSpecialMsg
  | r => .ok (sortGroupMetric (getValue r) teams)

mutual

/-- `tiebreaker_sort` (lines 117-146) as invoked from the `HEAD_TO_HEAD`
branch of `sort_group`: `tiebreaker_sort(sub_teams, deque(special))` passes
no third argument, so `special` is `None` throughout this inner resolution
and every `sort_group` call inside it is `sortGroupBasic`. -/
def tiebreakerSortInner (teams : List Team) :
    List Tiebreaker → Except String (List (Team ⊕ List Team))
  | [] => .ok [.inr teams]
  | t :: ts => do
    let groups ← sortGroupBasic teams t
    processInner ts groups
  termination_by tbs => (tbs.length, 0, 0)
  decreasing_by all_goals exact Prod.Lex.left _ _ (by (try simp only [List.length_cons]); omega)

/-- The loop over `sorted_groups` (lines 140-145) of the inner resolution:
groups of more than one team recurse with a copy of the remaining deque,
other groups are appended element-wise. -/
def processInner (ts : List Tiebreaker) :
    List (List Team) → Except String (List (Team ⊕ List Team))
  | [] => .ok []
  | g :: gs => do
    let head ← if 1 < g.length then tiebreakerSortInner g ts else .ok (g.map .inl)
    let rest ← processInner ts gs
    .ok (head ++ rest)
  termination_by gs => (ts.length, 1, gs.length)
  decreasing_by
    all_goals first
      | exact Prod.Lex.right _ (Prod.Lex.left _ _ (by (try simp only [List.length_cons]); omega))
      | exact Prod.Lex.right _ (Prod.Lex.right _ (by (try simp only [List.length_cons]); omega))

end

/-- The head-to-head match filter of `sort_group` (lines 71-76): every match
recorded on any team of the group both of whose participants are group
members (membership in the `orig_teams` dictionary is membership among the
group's team names). -/
def mutualMatches (teams : List Team) : List Match :=
  (teams.map (fun t => t.«matches»)).flatten.filter
    (fun m => teams.any (fun t => t.name = m.home) && teams.any (fun t => t.name = m.guest))

/-- `sort_group` (lines 60-114).  The `HEAD_TO_HEAD` branch: require a
non-empty special sequence, filter and deduplicate the group's mutual
matches, aggregate them into a sub-table, resolve the sub-table with the
special sequence (and no further special argument), and map the resulting
order back onto the original team objects by name.  (The
`logger.warning` on an empty mutual-match set is a side effect only; note
the branch then still proceeds with the empty sub-table.)  Any other rule
runs the metric sort, ignoring `special`. -/
def sortGroup (gen : String → List Char) (teams : List Team) (rule : Tiebreaker)
    (special : Option (List Tiebreaker)) : Except String (List (List Team)) :=
  match rule with
  | .HEAD_TO_HEAD =>
    match special with
    | none => .error noSpecialMsg
    | some [] => .error noSpecialMsg
    | some (s :: ss) => do
      let uniqueMatches := pyDedup (mutualMatches teams)
      let subTeams := createStandings gen uniqueMatches
      let subStandings ← tiebreakerSortInner subTeams (s :: ss)
      .ok (subStandings.map (fun e =>
        match e with
        | .inr subGroup => subGroup.map (fun t => lookupTeam teams t.name)
        | .inl subTeam => [lookupTeam teams subTeam.name]))
  | r => .ok (sortGroupMetric (getValue r) teams)

mutual

/-- `tiebreaker_sort` (lines 117-146), outer form with a `special`
argument forwarded unchanged to `sort_group` and to the recursive calls. -/
def tiebreakerSort (gen : String → List Char) (teams : List Team)
    (special : Option (List Tiebreaker)) :
    List Tiebreaker → Except String (List (Team ⊕ List Team))
  | [] => .ok [.inr teams]
  | t :: ts => do
    let groups ← sortGroup gen teams t special
    processGroups gen special ts groups
  termination_by tbs => (tbs.length, 0, 0)
  decreasing_by all_goals exact Prod.Lex.left _ _ (by (try simp only [List.length_cons]); omega)

/-- The loop over `sorted_groups` (lines 140-145) of the outer resolution. -/
def processGroups (gen : String → List Char) (special : Option (List Tiebreaker))
    (ts : List Tiebreaker) :
    List (List Team) → Except String (List (Team ⊕ List Team))
  | [] => .ok []
  | g :: gs => do
    let head ← if 1 < g.length then tiebreakerSort gen g special ts else .ok (g.map .inl)
    let rest ← processGroups gen special ts gs
    .ok (head ++ rest)
  termination_by gs => (ts.length, 1, gs.length)
  decreasing_by
    all_goals first
      | exact Prod.Lex.right _ (Prod.Lex.left _ _ (by (try simp only [List.length_cons]); omega))
      | exact Prod.Lex.right _ (Prod.Lex.right _ (by (try simp only [List.length_cons]); omega))

end

/-- `tiebreaker_sort` with the caller's deque state made explicit: the call
`tiebreakers.popleft()` removes the first rule from the deque object the
caller passed in; the recursive calls receive `tiebreakers.copy()` and hence
never touch that object again.  The first component is the returned value
(a pure function of the arguments), the second is the state of the caller's
deque after the call returns. -/
def tiebreakerSortSt (gen : String → List Char) (teams : List Team)
    (tiebreakers : List Tiebreaker) (special : Option (List Tiebreaker)) :
    Except String (List (Team ⊕ List Team)) × List Tiebreaker :=
  match tiebreakers with
  | [] => (.ok [.inr teams], [])
  | t :: ts => (tiebreakerSort gen teams special (t :: ts), ts)

/-- `_verify_standings` (lines 196-200): raise unless every entry of the
final list is a bare `Team`. -/
def verifyStandings (res : List (Team ⊕ List Team)) : Except String (List Team) :=
  if res.all (fun e => match e with | .inl _ => true | .inr _ => false) then
    .ok (res.filterMap (fun e => match e with | .inl t => some t | .inr _ => none))
  else .error "Table contains non-team objects"

/-- `show_standings` (lines 203-225) with the final `_show_standings`
printing step modelled as returning the verified list it would print. -/
def showStandings (gen : String → List Char) (ms : List Match)
    (tiebreakers : List Tiebreaker) (special : Option (List Tiebreaker)) :
    Except String (List Team) := do
  let teams := createStandings gen ms
  let sorted ← tiebreakerSort gen teams special tiebreakers
  verifyStandings sorted

end StandingsPy

namespace TablePy

/-! ## `src/table.py` — textually identical to `standings.py` except that
`create_table` returns the name-keyed dictionary itself and that the
`RANDOM` branch of `get_value` returns the uuid *string* (compared
lexicographically by `sorted`) instead of `int(team.uuid, 16)`. -/

/-- The team values accumulated by `create_table` (lines 128-161); the loop
body is textually identical to `create_standings` in `standings.py`. -/
def createTableTeams (gen : String → List Char) (ms : List Match) : List Team :=
  ms.foldl (aggStep gen) []

/-- `create_table` (lines 128-161): the insertion-ordered name-keyed
dictionary. -/
def createTable (gen : String → List Char) (ms : List Match) :
    List (String × Team) :=
  (createTableTeams gen ms).map (fun t => (t.name, t))

/-- The integer-valued part of `get_value` (lines 79-93); identical to
`standings.py` for these rules.  `RANDOM` (which returns the uuid string)
and `HEAD_TO_HEAD` (unreachable) are handled separately in
`sortGroupBasic`. -/
def getValueInt : Tiebreaker → Team → Int
  | .POINTS, t => t.points
  | .GOAL_DIFFERENCE, t => t.goals_for - t.goals_against
  | .GOALS_FOR, t => t.goals_for
  | .WINS, t => t.wins
  | .AWAY_GOALS_FOR, t => t.away_goals_for
  | _, _ => 0

/-- `sort_group(teams, type_, None)` of `table.py`: `HEAD_TO_HEAD` raises,
`RANDOM` sorts and groups by the uuid string (Python string comparison),
every other rule sorts and groups by the integer metric. -/
def sortGroupBasic (teams : List Team) (rule : Tiebreaker) :
    Except String (List (List Team)) :=
  match rule with
  | .HEAD_TO_HEAD => .error StandingsPy.noSpecialMsg
  | .RANDOM =>
    .ok (groupByValue (fun t => t.uuid)
      (pySortedRev (fun a b => !strLt a.uuid b.uuid) teams))
  | r => .ok (StandingsPy.sortGroupMetric (getValueInt r) teams)

mutual

/-- `tiebreaker_sort` (lines 105-125) as invoked from the `HEAD_TO_HEAD`
branch, where no `special_tiebreakers` argument is forwarded. -/
def tiebreakerSortInner (teams : List Team) :
    List Tiebreaker → Except String (List (Team ⊕ List Team))
  | [] => .ok [.inr teams]
  | t :: ts => do
    let groups ← sortGroupBasic teams t
    processInner ts groups
  termination_by tbs => (tbs.length, 0, 0)
  decreasing_by all_goals exact Prod.Lex.left _ _ (by (try simp only [List.length_cons]); omega)

/-- The loop over `sorted_groups` (lines 119-124) of the inner resolution. -/
def processInner (ts : List Tiebreaker) :
    List (List Team) → Except String (List (Team ⊕ List Team))
  | [] => .ok []
  | g :: gs => do
    let head ← if 1 < g.length then tiebreakerSortInner g ts else .ok (g.map .inl)
    let rest ← processInner ts gs
    .ok (head ++ rest)
  termination_by gs => (ts.length, 1, gs.length)
  decreasing_by
    all_goals first
      | exact Prod.Lex.right _ (Prod.Lex.left _ _ (by (try simp only [List.length_cons]); omega))
      | exact Prod.Lex.right _ (Prod.Lex.right _ (by (try simp only [List.length_cons]); omega))

end

/-- The head-to-head match filter of `sort_group` (lines 59-64 of
`table.py`, an explicit double loop with the same meaning as the
comprehension in `standings.py`). -/
def mutualMatches (teams : List Team) : List Match :=
  (teams.map (fun t => t.«matches»)).flatten.filter
    (fun m => teams.any (fun t => t.name = m.home) && teams.any (fun t => t.name = m.guest))

/-- `sort_group` (lines 49-102 of `table.py`); the `HEAD_TO_HEAD` branch
builds the sub-table via `create_table(...)` and resolves
`subtable.values()` with the special sequence. -/
def sortGroup (gen : String → List Char) (teams : List Team) (rule : Tiebreaker)
    (special : Option (List Tiebreaker)) : Except String (List (List Team)) :=
  match rule with
  | .HEAD_TO_HEAD =>
    match special with
    | none => .error StandingsPy.noSpecialMsg
    | some [] => .error StandingsPy.noSpecialMsg
    | some (s :: ss) => do
      let uniqueMatches := pyDedup (mutualMatches teams)
      let subTeams := (createTable gen uniqueMatches).map Prod.snd
      let subStandings ← tiebreakerSortInner subTeams (s :: ss)
      .ok (subStandings.map (fun e =>
        match e with
        | .inr subGroup => subGroup.map (fun t => lookupTeam teams t.name)
        | .inl subTeam => [lookupTeam teams subTeam.name]))
  | .RANDOM =>
    .ok (groupByValue (fun t => t.uuid)
      (pySortedRev (fun a b => !strLt a.uuid b.uuid) teams))
  | r => .ok (StandingsPy.sortGroupMetric (getValueInt r) teams)

mutual

/-- `tiebreaker_sort` (lines 105-125), outer form. -/
def tiebreakerSort (gen : String → List Char) (teams : List Team)
    (special : Option (List Tiebreaker)) :
    List Tiebreaker → Except String (List (Team ⊕ List Team))
  | [] => .ok [.inr teams]
  | t :: ts => do
    let groups ← sortGroup gen teams t special
    processGroups gen special ts groups
  termination_by tbs => (tbs.length, 0, 0)
  decreasing_by all_goals exact Prod.Lex.left _ _ (by (try simp only [List.length_cons]); omega)

/-- The loop over `sorted_groups` (lines 119-124) of the outer resolution. -/
def processGroups (gen : String → List Char) (special : Option (List Tiebreaker))
    (ts : List Tiebreaker) :
    List (List Team) → Except String (List (Team ⊕ List Team))
  | [] => .ok []
  | g :: gs => do
    let head ← if 1 < g.length then tiebreakerSort gen g special ts else .ok (g.map .inl)
    let rest ← processGroups gen special ts gs
    .ok (head ++ rest)
  termination_by gs => (ts.length, 1, gs.length)
  decreasing_by
    all_goals first
      | exact Prod.Lex.right _ (Prod.Lex.left _ _ (by (try simp only [List.length_cons]); omega))
      | exact Prod.Lex.right _ (Prod.Lex.right _ (by (try simp only [List.length_cons]); omega))

end

end TablePy

/-! ## Lemmas about the stable descending sort -/

/-- `pyInsert` splits its list around the inserted element: the prefix is
exactly the elements the insertion skipped, none of which satisfies
`r a ·`. -/
theorem pyInsert_split (r : Team → Team → Bool) (a : Team) (l : List Team) :
    ∃ l₁ l₂, pyInsert r a l = l₁ ++ a :: l₂ ∧ l = l₁ ++ l₂ ∧ ∀ b ∈ l₁, r a b = false := by
  induction l with
  | nil => exact ⟨[], [], rfl, rfl, by simp⟩
  | cons b l ih =>
    by_cases h : r a b
    · exact ⟨[], b :: l, by simp [pyInsert, h], rfl, by simp⟩
    · obtain ⟨l₁, l₂, h1, h2, h3⟩ := ih
      refine ⟨b :: l₁, l₂, by simp [pyInsert, h, h1], by simp [h2], ?_⟩
      intro c hc
      rcases List.mem_cons.mp hc with rfl | hc
      · exact Bool.eq_false_iff.mpr h
      · exact h3 c hc

theorem pyInsert_perm (r : Team → Team → Bool) (a : Team) (l : List Team) :
    (pyInsert r a l).Perm (a :: l) := by
  obtain ⟨l₁, l₂, h1, h2, -⟩ := pyInsert_split r a l
  rw [h1, h2]
  exact (List.perm_middle).trans (List.Perm.refl _)

theorem pySortedRev_perm (r : Team → Team → Bool) (l : List Team) :
    (pySortedRev r l).Perm l := by
  induction l with
  | nil => exact List.Perm.refl _
  | cons a l ih => exact (pyInsert_perm r a _).trans (ih.cons a)

theorem mem_pySortedRev (r : Team → Team → Bool) (l : List Team) (t : Team) :
    t ∈ pySortedRev r l ↔ t ∈ l := (pySortedRev_perm r l).mem_iff

/-- Inserting an element that fails `p` does not change the `p`-filter. -/
theorem filter_pyInsert_neg (r : Team → Team → Bool) (p : Team → Bool) (a : Team)
    (l : List Team) (ha : p a = false) :
    (pyInsert r a l).filter p = l.filter p := by
  obtain ⟨l₁, l₂, h1, h2, -⟩ := pyInsert_split r a l
  rw [h1, h2]
  simp [List.filter_append, ha]

/-- Inserting an element that satisfies `p`, when everything strictly above
it (w.r.t. `r`) fails `p`, prepends it to the `p`-filter. -/
theorem filter_pyInsert_pos (r : Team → Team → Bool) (p : Team → Bool) (a : Team)
    (l : List Team) (ha : p a = true) (h : ∀ b, r a b = false → p b = false) :
    (pyInsert r a l).filter p = a :: l.filter p := by
  obtain ⟨l₁, l₂, h1, h2, h3⟩ := pyInsert_split r a l
  rw [h1, h2]
  have : l₁.filter p = [] := List.filter_eq_nil_iff.mpr (fun b hb => by
    simp [h b (h3 b hb)])
  simp [List.filter_append, ha, this]

/-- Stability of the modelled `sorted(key=key, reverse=True)`: the
subsequence of teams holding any one key value is exactly the input
subsequence with that value, in input order. -/
theorem filter_pySortedRev_key (key : Team → Int) (v : Int) (l : List Team) :
    ((pySortedRev (fun a b => decide (key b ≤ key a)) l).filter (fun t => key t = v)) =
      l.filter (fun t => key t = v) := by
  induction l with
  | nil => rfl
  | cons a l ih =>
    show ((pyInsert _ a (pySortedRev _ l)).filter _) = _
    by_cases ha : key a = v
    · rw [filter_pyInsert_pos _ _ a _ (by simp [ha]) ?_]
      · simp [ha, ih]
      · intro b hb
        simp only [decide_eq_false_iff_not, not_le] at hb
        simp only [decide_eq_false_iff_not]
        omega
    · rw [filter_pyInsert_neg _ _ a _ (by simp [ha])]
      simp [ha, ih]

/-- `pyInsert` preserves sortedness w.r.t. a total transitive relation. -/
theorem pairwise_pyInsert (key : Team → Int) (a : Team) (l : List Team)
    (h : l.Pairwise (fun x y => key y ≤ key x)) :
    (pyInsert (fun x y => decide (key y ≤ key x)) a l).Pairwise
      (fun x y => key y ≤ key x) := by
  induction l with
  | nil => simp [pyInsert]
  | cons b l ih =>
    rcases List.pairwise_cons.mp h with ⟨hb, hl⟩
    by_cases hab : key b ≤ key a
    · simp only [pyInsert, decide_eq_true_eq, hab, if_pos]
      refine List.pairwise_cons.mpr ⟨?_, h⟩
      intro c hc
      rcases List.mem_cons.mp hc with rfl | hc
      · exact hab
      · exact le_trans (hb c hc) hab
    · simp only [pyInsert, decide_eq_true_eq, hab, if_neg, not_false_iff]
      refine List.pairwise_cons.mpr ⟨?_, ih hl⟩
      intro c hc
      have := (pyInsert_perm (fun x y => decide (key y ≤ key x)) a l).mem_iff.mp hc
      rcases List.mem_cons.mp this with rfl | hc
      · omega
      · exact hb c hc

/-- The modelled `sorted(key=key, reverse=True)` is sorted descending. -/
theorem pairwise_pySortedRev (key : Team → Int) (l : List Team) :
    (pySortedRev (fun x y => decide (key y ≤ key x)) l).Pairwise
      (fun x y => key y ≤ key x) := by
  induction l with
  | nil => simp [pySortedRev]
  | cons a l ih => exact pairwise_pyInsert key a _ ih

/-! ## Lemmas about the grouping loop -/

/-- Value of a group: the key of its first element (groups produced by the
loop are never empty). -/
def groupVal (key : Team → Int) (g : List Team) : Int := key (g.headD defaultTeam)

theorem addToGroups_concat {κ : Type} [DecidableEq κ] (key : Team → κ)
    (gs : List (List Team)) (g : List Team) (g0 : Team) (t : Team)
    (h : g.head? = some g0) :
    addToGroups key (gs ++ [g]) t =
      if key g0 = key t then gs ++ [g ++ [t]] else (gs ++ [g]) ++ [[t]] := by
  unfold addToGroups
  rw [List.getLast?_concat]
  simp only [h, List.dropLast_concat]
  by_cases hk : key g0 = key t <;> simp [hk]

/-- The grouping `foldl`, started with a non-empty last group, continues that
group through the run of its key and then behaves as `groupsOf`. -/
theorem foldl_addToGroups {κ : Type} [DecidableEq κ] (key : Team → κ)
    (ts : List Team) :
    ∀ (gs : List (List Team)) (g : List Team) (g0 : Team), g.head? = some g0 →
      List.foldl (addToGroups key) (gs ++ [g]) ts =
        gs ++ [g ++ ts.takeWhile (fun u => key u = key g0)] ++
          groupsOf key (ts.dropWhile (fun u => key u = key g0)) := by
  induction ts with
  | nil => intro gs g g0 _; simp [groupsOf_nil]
  | cons t ts ih =>
    intro gs g g0 hg
    by_cases hk : key t = key g0
    · have hcond : key g0 = key t := hk.symm
      have hg' : (g ++ [t]).head? = some g0 := by
        cases g with
        | nil => simp at hg
        | cons x xs => simp_all
      calc List.foldl (addToGroups key) (gs ++ [g]) (t :: ts)
          = List.foldl (addToGroups key) (addToGroups key (gs ++ [g]) t) ts := rfl
        _ = List.foldl (addToGroups key) (gs ++ [g ++ [t]]) ts := by
            rw [addToGroups_concat key gs g g0 t hg, if_pos hcond]
        _ = gs ++ [(g ++ [t]) ++ ts.takeWhile (fun u => key u = key g0)] ++
              groupsOf key (ts.dropWhile (fun u => key u = key g0)) := ih gs (g ++ [t]) g0 hg'
        _ = gs ++ [g ++ (t :: ts).takeWhile (fun u => key u = key g0)] ++
              groupsOf key ((t :: ts).dropWhile (fun u => key u = key g0)) := by
            simp [List.takeWhile_cons, List.dropWhile_cons, hk]
    · have hcond : ¬ key g0 = key t := fun h => hk h.symm
      calc List.foldl (addToGroups key) (gs ++ [g]) (t :: ts)
          = List.foldl (addToGroups key) (addToGroups key (gs ++ [g]) t) ts := rfl
        _ = List.foldl (addToGroups key) ((gs ++ [g]) ++ [[t]]) ts := by
            rw [addToGroups_concat key gs g g0 t hg, if_neg hcond]
        _ = (gs ++ [g]) ++ [[t] ++ ts.takeWhile (fun u => key u = key t)] ++
              groupsOf key (ts.dropWhile (fun u => key u = key t)) := ih (gs ++ [g]) [t] t rfl
        _ = gs ++ [g ++ (t :: ts).takeWhile (fun u => key u = key g0)] ++
              groupsOf key ((t :: ts).dropWhile (fun u => key u = key g0)) := by
            have h1 : (t :: ts).takeWhile (fun u => decide (key u = key g0)) = [] := by
              simp [List.takeWhile_cons, hk]
            have h2 : (t :: ts).dropWhile (fun u => decide (key u = key g0)) = t :: ts := by
              simp [List.dropWhile_cons, hk]
            rw [h1, h2, groupsOf_cons]
            simp

/-- The grouping loop of `sort_group` equals its recursive
characterisation. -/
theorem groupByValue_eq_groupsOf {κ : Type} [DecidableEq κ] (key : Team → κ)
    (l : List Team) : groupByValue key l = groupsOf key l := by
  cases l with
  | nil => rw [groupsOf_nil]; rfl
  | cons t ts =>
    have h0 : addToGroups key [] t = [] ++ [[t]] := by simp [addToGroups]
    calc groupByValue key (t :: ts)
        = List.foldl (addToGroups key) (addToGroups key [] t) ts := rfl
      _ = List.foldl (addToGroups key) ([] ++ [[t]]) ts := by rw [h0]
      _ = [] ++ [[t] ++ ts.takeWhile (fun u => key u = key t)] ++
            groupsOf key (ts.dropWhile (fun u => key u = key t)) :=
          foldl_addToGroups key ts [] [t] t rfl
      _ = groupsOf key (t :: ts) := by rw [groupsOf_cons]; simp

/-- Flattening the groups recovers the grouped list. -/
theorem groupsOf_flatten {κ : Type} [DecidableEq κ] (key : Team → κ)
    (l : List Team) : (groupsOf key l).flatten = l := by
  induction l using groupsOf.induct key with
  | case1 => rw [groupsOf_nil]; rfl
  | case2 t ts ih =>
    rw [groupsOf_cons]
    simp only [List.flatten_cons, ih]
    simp [List.takeWhile_append_dropWhile]

theorem mem_of_mem_groupsOf {κ : Type} [DecidableEq κ] (key : Team → κ)
    {l : List Team} {g : List Team} {u : Team} (hg : g ∈ groupsOf key l)
    (hu : u ∈ g) : u ∈ l := by
  have : u ∈ (groupsOf key l).flatten := List.mem_flatten.mpr ⟨g, hg, hu⟩
  rwa [groupsOf_flatten] at this

/-- In a descending-sorted list, everything after the run of the leading
value is strictly below it. -/
theorem dropWhile_key_lt (key : Team → Int) (c : Int) (ts : List Team)
    (hs : ts.Pairwise (fun x y => key y ≤ key x)) (hle : ∀ u ∈ ts, key u ≤ c) :
    ∀ u ∈ ts.dropWhile (fun u => decide (key u = c)), key u < c := by
  induction ts with
  | nil => simp
  | cons v ts ih =>
    rcases List.pairwise_cons.mp hs with ⟨hv, hts⟩
    by_cases hk : key v = c
    · rw [List.dropWhile_cons_of_pos (by simp [hk])]
      exact ih hts (fun u hu => hle u (List.mem_cons_of_mem v hu))
    · rw [List.dropWhile_cons_of_neg (by simp [hk])]
      intro u hu
      rcases List.mem_cons.mp hu with rfl | hu
      · exact lt_of_le_of_ne (hle u (List.mem_cons_self u ts)) hk
      · exact lt_of_le_of_lt (hv u hu)
          (lt_of_le_of_ne (hle v (List.mem_cons_self v ts)) hk)

/-- Each group of a descending-sorted list is exactly the filter of the list
at the group's value. -/
theorem groupsOf_filter_char (key : Team → Int) (l : List Team)
    (hs : l.Pairwise (fun x y => key y ≤ key x)) :
    ∀ g ∈ groupsOf (fun t => key t) l,
      g ≠ [] ∧ g = l.filter (fun t => decide (key t = groupVal key g)) := by
  induction l using groupsOf.induct (fun t => key t) with
  | case1 => simp [groupsOf_nil]
  | case2 t ts ih =>
    rcases List.pairwise_cons.mp hs with ⟨hle, hts⟩
    intro g hgmem
    rw [groupsOf_cons] at hgmem
    have hrest_lt : ∀ u ∈ ts.dropWhile (fun u => key u = key t), key u < key t := by
      have := dropWhile_key_lt key (key t) ts hts hle
      simpa using this
    have hdrop_sorted : (ts.dropWhile (fun u => key u = key t)).Pairwise
        (fun x y => key y ≤ key x) := List.Pairwise.sublist (List.dropWhile_sublist _) hts
    rcases List.mem_cons.mp hgmem with rfl | hgrec
    · constructor
      · simp
      · have hval : groupVal key (t :: ts.takeWhile (fun u => key u = key t)) = key t := by
          simp [groupVal]
        rw [hval]
        have htw : ∀ u ∈ ts.takeWhile (fun u => key u = key t), key u = key t := by
          intro u hu
          have := List.takeWhile_prefix (l := ts) (p := fun u => decide (key u = key t))
          have hmem : u ∈ ts.takeWhile (fun u => decide (key u = key t)) := by simpa using hu
          simpa using List.mem_takeWhile_imp hmem
        have hsplit : ts = ts.takeWhile (fun u => key u = key t) ++
            ts.dropWhile (fun u => key u = key t) := (List.takeWhile_append_dropWhile ..).symm
        calc t :: ts.takeWhile (fun u => key u = key t)
            = t :: ((ts.takeWhile (fun u => key u = key t)).filter
                (fun u => decide (key u = key t)) ++
              (ts.dropWhile (fun u => key u = key t)).filter
                (fun u => decide (key u = key t))) := by
              rw [List.filter_eq_self.mpr (fun u hu => by simp [htw u hu]),
                List.filter_eq_nil_iff.mpr (fun u hu => by
                  simp only [decide_eq_true_eq]
                  exact ne_of_lt (hrest_lt u hu))]
              simp
          _ = (t :: ts).filter (fun u => decide (key u = key t)) := by
              rw [← List.filter_append, ← hsplit]
              simp
    · obtain ⟨hne, hchar⟩ := ih hdrop_sorted g hgrec
      refine ⟨hne, ?_⟩
      have hval_lt : groupVal key g < key t := by
        cases g with
        | nil => exact absurd rfl hne
        | cons u g' =>
          have : u ∈ ts.dropWhile (fun u => key u = key t) :=
            mem_of_mem_groupsOf _ hgrec (List.mem_cons_self u g')
          simpa [groupVal] using hrest_lt u this
      have hsplit : ts = ts.takeWhile (fun u => key u = key t) ++
          ts.dropWhile (fun u => key u = key t) := (List.takeWhile_append_dropWhile ..).symm
      have htfilter : (t :: ts.takeWhile (fun u => key u = key t)).filter
          (fun u => decide (key u = groupVal key g)) = [] := by
        apply List.filter_eq_nil_iff.mpr
        intro u hu
        simp only [decide_eq_true_eq]
        rcases List.mem_cons.mp hu with rfl | hu
        · exact fun h => absurd h.symm (ne_of_lt hval_lt)
        · have : key u = key t := by
            have hmem : u ∈ ts.takeWhile (fun u => decide (key u = key t)) := by simpa using hu
            simpa using List.mem_takeWhile_imp hmem
          rw [this]
          exact fun h => absurd h.symm (ne_of_lt hval_lt)
      calc g = (ts.dropWhile (fun u => key u = key t)).filter
            (fun u => decide (key u = groupVal key g)) := hchar
        _ = (t :: ts).filter (fun u => decide (key u = groupVal key g)) := by
            conv_rhs => rw [show (t :: ts) = (t :: ts.takeWhile (fun u => key u = key t)) ++
              ts.dropWhile (fun u => key u = key t) by rw [List.cons_append, ← hsplit]]
            rw [List.filter_append, htfilter, List.nil_append]

/-- Group values strictly decrease along the groups of a descending-sorted
list. -/
theorem groupsOf_strict_desc (key : Team → Int) (l : List Team)
    (hs : l.Pairwise (fun x y => key y ≤ key x)) :
    (groupsOf (fun t => key t) l).Pairwise
      (fun g₁ g₂ => groupVal key g₂ < groupVal key g₁) := by
  induction l using groupsOf.induct (fun t => key t) with
  | case1 => simp [groupsOf_nil]
  | case2 t ts ih =>
    rcases List.pairwise_cons.mp hs with ⟨hle, hts⟩
    have hrest_lt : ∀ u ∈ ts.dropWhile (fun u => key u = key t), key u < key t := by
      have := dropWhile_key_lt key (key t) ts hts hle
      simpa using this
    have hdrop_sorted : (ts.dropWhile (fun u => key u = key t)).Pairwise
        (fun x y => key y ≤ key x) := List.Pairwise.sublist (List.dropWhile_sublist _) hts
    rw [groupsOf]
    refine List.pairwise_cons.mpr ⟨?_, ih hdrop_sorted⟩
    intro g hg
    obtain ⟨hne, -⟩ := groupsOf_filter_char key _ hdrop_sorted g hg
    have : groupVal key g < key t := by
      cases g with
      | nil => exact absurd rfl hne
      | cons u g' =>
        have : u ∈ ts.dropWhile (fun u => key u = key t) :=
          mem_of_mem_groupsOf _ hg (List.mem_cons_self u g')
        simpa [groupVal] using hrest_lt u this
    simpa [groupVal]

/-! ## Characterisation of the metric sort -/

/-- Full characterisation of `sortGroupMetric`: every group is non-empty and
is exactly the input filtered at the group's value (in input order), and
group values strictly decrease. -/
theorem sortGroupMetric_char (key : Team → Int) (teams : List Team) :
    (∀ g ∈ StandingsPy.sortGroupMetric key teams,
      g ≠ [] ∧ g = teams.filter (fun t => decide (key t = groupVal key g))) ∧
    (StandingsPy.sortGroupMetric key teams).Pairwise
      (fun g₁ g₂ => groupVal key g₂ < groupVal key g₁) := by
  unfold StandingsPy.sortGroupMetric
  rw [groupByValue_eq_groupsOf]
  have hsorted := pairwise_pySortedRev key teams
  constructor
  · intro g hg
    obtain ⟨hne, hchar⟩ := groupsOf_filter_char key _ hsorted g hg
    exact ⟨hne, hchar.trans (filter_pySortedRev_key key (groupVal key g) teams)⟩
  · exact groupsOf_strict_desc key _ hsorted

/-! ## Concrete inputs used by witnesses and counterexamples -/

/-- A fixed token generator (every name gets the hex token `"00000"`);
witnesses and counterexamples never rely on token distinctness. -/
def gen0 : String → List Char := fun _ => ['0', '0', '0', '0', '0']

def mAB : Match := ⟨"A", "B", 1, 0, 1, 1⟩
def mAD : Match := ⟨"A", "D", 2, 1, 1, 1⟩
def mBD : Match := ⟨"B", "D", 1, 1, 1, 1⟩
def mCD : Match := ⟨"C", "D", 0, 1, 1, 1⟩

/-- Team A of a tied group whose only recorded match is against the
outside team D. -/
def tA : Team := { name := "A", «matches» := [mAD], uuid := gen0 "A" }

/-- Team B of a tied group whose only recorded match is against the
outside team D. -/
def tB : Team := { name := "B", «matches» := [mBD], uuid := gen0 "B" }

/-- Teams A, B, C tied, where only A and B played each other. -/
def uA : Team := { name := "A", «matches» := [mAB], uuid := gen0 "A" }
def uB : Team := { name := "B", «matches» := [mAB], uuid := gen0 "B" }
def uC : Team := { name := "C", «matches» := [mCD], uuid := gen0 "C" }

/-- Aggregate of team A over the single match `mAB`. -/
def aggA : Team :=
  { name := "A", games := 1, points := 3, wins := 1, goals_for := 1,
    fairplay := 1, «matches» := [mAB], uuid := gen0 "A" }

/-! ## C7 -/

/-- C7: for every team list and every metric rule among Points,
GoalDifference (goals_for − goals_against), GoalsFor, Wins and AwayGoalsFor,
`sort_group` succeeds and returns groups in strictly descending metric
order, where each group is non-empty and is exactly the sublist of input
teams holding the group's metric value, in original input order (stable). -/
theorem claim_C7 (gen : String → List Char) (teams : List Team)
    (special : Option (List Tiebreaker)) (rule : Tiebreaker)
    (h : rule = .POINTS ∨ rule = .GOAL_DIFFERENCE ∨ rule = .GOALS_FOR ∨
      rule = .WINS ∨ rule = .AWAY_GOALS_FOR) :
    ∃ gs, StandingsPy.sortGroup gen teams rule special = .ok gs ∧
      (∀ g ∈ gs, g ≠ [] ∧
        g = teams.filter
          (fun t => decide (StandingsPy.getValue rule t =
            groupVal (StandingsPy.getValue rule) g))) ∧
      gs.Pairwise (fun g₁ g₂ => groupVal (StandingsPy.getValue rule) g₂ <
        groupVal (StandingsPy.getValue rule) g₁) := by
  refine ⟨StandingsPy.sortGroupMetric (StandingsPy.getValue rule) teams, ?_, ?_, ?_⟩
  · rcases h with rfl | rfl | rfl | rfl | rfl <;> rfl
  · exact (sortGroupMetric_char (StandingsPy.getValue rule) teams).1
  · exact (sortGroupMetric_char (StandingsPy.getValue rule) teams).2

/-- Witness for C7 at a concrete input. -/
theorem claim_C7_witness :
    (Tiebreaker.POINTS = Tiebreaker.POINTS ∨ Tiebreaker.POINTS = .GOAL_DIFFERENCE ∨
      Tiebreaker.POINTS = .GOALS_FOR ∨ Tiebreaker.POINTS = .WINS ∨
      Tiebreaker.POINTS = .AWAY_GOALS_FOR) ∧
    (∃ gs, StandingsPy.sortGroup gen0 [tA, tB] .POINTS none = .ok gs ∧
      (∀ g ∈ gs, g ≠ [] ∧
        g = [tA, tB].filter
          (fun t => decide (StandingsPy.getValue .POINTS t =
            groupVal (StandingsPy.getValue .POINTS) g))) ∧
      gs.Pairwise (fun g₁ g₂ => groupVal (StandingsPy.getValue .POINTS) g₂ <
        groupVal (StandingsPy.getValue .POINTS) g₁)) :=
  ⟨Or.inl rfl, claim_C7 gen0 [tA, tB] none .POINTS (Or.inl rfl)⟩

/-! ## C8 -/

/-- C8: resolving with an exhausted tiebreak sequence returns the input as a
single unresolved group, and the top-level verification rejects any final
list still containing a multi-team group (it raises on every non-`Team`
entry, in particular on every group of two or more teams). -/
theorem claim_C8 :
    (∀ (gen : String → List Char) (teams : List Team)
      (special : Option (List Tiebreaker)),
      StandingsPy.tiebreakerSort gen teams special [] = .ok [.inr teams]) ∧
    (∀ (res : List (Team ⊕ List Team)) (g : List Team), .inr g ∈ res →
      2 ≤ g.length →
      StandingsPy.verifyStandings res = .error "Table contains non-team objects") := by
  constructor
  · intro gen teams special
    rw [StandingsPy.tiebreakerSort]
  · intro res g hmem _
    unfold StandingsPy.verifyStandings
    have : res.all (fun e => match e with | .inl _ => true | .inr _ => false) = false := by
      rw [List.all_eq_false]
      exact ⟨.inr g, hmem, by simp⟩
    rw [this]
    simp

/-- Witness for C8 at a concrete input. -/
theorem claim_C8_witness :
    StandingsPy.tiebreakerSort gen0 [tA, tB] none [] = .ok [.inr [tA, tB]] ∧
    (Sum.inr [tA, tB] ∈ ([.inr [tA, tB]] : List (Team ⊕ List Team)) ∧
      2 ≤ ([tA, tB] : List Team).length ∧
      StandingsPy.verifyStandings [.inr [tA, tB]] =
        .error "Table contains non-team objects") :=
  ⟨claim_C8.1 gen0 [tA, tB] none,
    List.mem_singleton.mpr rfl, by simp,
    claim_C8.2 [.inr [tA, tB]] [tA, tB] (List.mem_singleton.mpr rfl) (by simp)⟩

/-! ## C9 -/

/-- The aggregation invariant of C9. -/
def gamesInv (t : Team) : Prop := t.games = t.wins + t.draws + t.losses

theorem homeUpdate_inv (m : Match) (t : Team) (h : gamesInv t) :
    gamesInv (homeUpdate m t) := by
  unfold gamesInv at h ⊢
  unfold homeUpdate
  split_ifs <;> simp <;> omega

theorem guestUpdate_inv (m : Match) (t : Team) (h : gamesInv t) :
    gamesInv (guestUpdate m t) := by
  unfold gamesInv at h ⊢
  unfold guestUpdate
  split_ifs <;> simp <;> omega

theorem updTeam_inv (l : List Team) (n : String) (f : Team → Team)
    (hf : ∀ t, gamesInv t → gamesInv (f t)) (h : ∀ t ∈ l, gamesInv t) :
    ∀ t ∈ updTeam l n f, gamesInv t := by
  intro t ht
  obtain ⟨u, hu, hut⟩ := List.mem_map.mp ht
  by_cases hn : u.name = n
  · simp only [hn, if_pos] at hut
    exact hut ▸ hf u (h u hu)
  · simp only [hn, if_neg, not_false_iff] at hut
    exact hut ▸ h u hu

theorem ensureTeam_inv (gen : String → List Char) (l : List Team) (n : String)
    (h : ∀ t ∈ l, gamesInv t) : ∀ t ∈ ensureTeam gen l n, gamesInv t := by
  intro t ht
  unfold ensureTeam at ht
  split at ht
  · exact h t ht
  · rcases List.mem_append.mp ht with h' | h'
    · exact h t h'
    · rcases List.mem_singleton.mp h' with rfl
      simp [gamesInv, mkTeam]

theorem aggStep_inv (gen : String → List Char) (l : List Team) (m : Match)
    (h : ∀ t ∈ l, gamesInv t) : ∀ t ∈ aggStep gen l m, gamesInv t := by
  unfold aggStep
  exact updTeam_inv _ _ _ (guestUpdate_inv m)
    (updTeam_inv _ _ _ (homeUpdate_inv m)
      (ensureTeam_inv gen _ m.guest (ensureTeam_inv gen l m.home h)))

/-- C9: for every match list (negative or otherwise malformed scores
included — scores are arbitrary integers here), every aggregated team
satisfies `games = wins + draws + losses`. -/
theorem claim_C9 (gen : String → List Char) (ms : List Match) :
    ∀ t ∈ StandingsPy.createStandings gen ms,
      t.games = t.wins + t.draws + t.losses := by
  suffices h : ∀ (l : List Team), (∀ t ∈ l, gamesInv t) →
      ∀ t ∈ ms.foldl (aggStep gen) l, gamesInv t by
    exact h [] (by simp)
  induction ms with
  | nil => intro l hl; simpa using hl
  | cons m ms ih =>
    intro l hl
    exact ih (aggStep gen l m) (aggStep_inv gen l m hl)

/-- Witness for C9 at a concrete input (a team aggregated from one match). -/
theorem claim_C9_witness :
    aggA ∈ StandingsPy.createStandings gen0 [mAB] ∧
      aggA.games = aggA.wins + aggA.draws + aggA.losses :=
  ⟨by decide, claim_C9 gen0 [mAB] aggA (by decide)⟩

/-! ## Equation lemmas for the well-founded resolver definitions -/

theorem tiebreakerSortInner_nil (teams : List Team) :
    StandingsPy.tiebreakerSortInner teams [] = .ok [.inr teams] := by
  rw [StandingsPy.tiebreakerSortInner]

theorem tiebreakerSortInner_cons (teams : List Team) (t : Tiebreaker)
    (ts : List Tiebreaker) :
    StandingsPy.tiebreakerSortInner teams (t :: ts) = (do
      let groups ← StandingsPy.sortGroupBasic teams t
      StandingsPy.processInner ts groups) := by
  rw [StandingsPy.tiebreakerSortInner]

theorem processInner_nil (ts : List Tiebreaker) :
    StandingsPy.processInner ts [] = .ok [] := by
  rw [StandingsPy.processInner]

theorem processInner_cons (ts : List Tiebreaker) (g : List Team)
    (gs : List (List Team)) :
    StandingsPy.processInner ts (g :: gs) = (do
      let head ← if 1 < g.length then StandingsPy.tiebreakerSortInner g ts
        else .ok (g.map .inl)
      let rest ← StandingsPy.processInner ts gs
      .ok (head ++ rest)) := by
  rw [StandingsPy.processInner]

theorem tiebreakerSort_nil (gen : String → List Char) (teams : List Team)
    (special : Option (List Tiebreaker)) :
    StandingsPy.tiebreakerSort gen teams special [] = .ok [.inr teams] := by
  rw [StandingsPy.tiebreakerSort]

theorem tiebreakerSort_cons (gen : String → List Char) (teams : List Team)
    (special : Option (List Tiebreaker)) (t : Tiebreaker) (ts : List Tiebreaker) :
    StandingsPy.tiebreakerSort gen teams special (t :: ts) = (do
      let groups ← StandingsPy.sortGroup gen teams t special
      StandingsPy.processGroups gen special ts groups) := by
  rw [StandingsPy.tiebreakerSort]

theorem processGroups_nil (gen : String → List Char)
    (special : Option (List Tiebreaker)) (ts : List Tiebreaker) :
    StandingsPy.processGroups gen special ts [] = .ok [] := by
  rw [StandingsPy.processGroups]

theorem processGroups_cons (gen : String → List Char)
    (special : Option (List Tiebreaker)) (ts : List Tiebreaker) (g : List Team)
    (gs : List (List Team)) :
    StandingsPy.processGroups gen special ts (g :: gs) = (do
      let head ← if 1 < g.length then StandingsPy.tiebreakerSort gen g special ts
        else .ok (g.map .inl)
      let rest ← StandingsPy.processGroups gen special ts gs
      .ok (head ++ rest)) := by
  rw [StandingsPy.processGroups]

/-! ## Permutation properties of the resolver -/

theorem flatRes_nil : flatRes [] = [] := rfl

theorem flatRes_cons (e : Team ⊕ List Team) (res : List (Team ⊕ List Team)) :
    flatRes (e :: res) =
      (match e with | .inl t => [t] | .inr g => g) ++ flatRes res := rfl

theorem flatRes_append (l₁ l₂ : List (Team ⊕ List Team)) :
    flatRes (l₁ ++ l₂) = flatRes l₁ ++ flatRes l₂ := by
  induction l₁ with
  | nil => rfl
  | cons e l₁ ih => simp [flatRes_cons, ih]

theorem flatRes_map_inl (g : List Team) :
    flatRes (g.map .inl) = g := by
  induction g with
  | nil => rfl
  | cons t g ih => simp [flatRes_cons, ih]

/-- The groups produced by a metric `sort_group` flatten to a permutation of
the input. -/
theorem sortGroupBasic_perm (teams : List Team) (rule : Tiebreaker)
    (gs : List (List Team)) (h : StandingsPy.sortGroupBasic teams rule = .ok gs) :
    gs.flatten.Perm teams := by
  unfold StandingsPy.sortGroupBasic at h
  cases rule <;> simp only [] at h <;>
    first
    | (cases h;
       rw [StandingsPy.sortGroupMetric, groupByValue_eq_groupsOf, groupsOf_flatten]
       exact pySortedRev_perm _ teams)
    | exact absurd h (by simp)

/-- If the inner resolver is a permutation-preserver at `ts`, so is the
group-processing loop. -/
theorem processInner_perm_of (ts : List Tiebreaker)
    (H : ∀ (teams : List Team) (res : List (Team ⊕ List Team)),
      StandingsPy.tiebreakerSortInner teams ts = .ok res → (flatRes res).Perm teams) :
    ∀ (gs : List (List Team)) (res : List (Team ⊕ List Team)),
      StandingsPy.processInner ts gs = .ok res → (flatRes res).Perm gs.flatten := by
  intro gs
  induction gs with
  | nil =>
    intro res h
    rw [processInner_nil] at h
    cases h
    exact List.Perm.refl _
  | cons g gs ih =>
    intro res h
    rw [processInner_cons] at h
    by_cases hg : 1 < g.length
    · rw [if_pos hg] at h
      cases hh : StandingsPy.tiebreakerSortInner g ts with
      | error e => rw [hh] at h; exact absurd h (by simp [Bind.bind, Except.bind])
      | ok head =>
        rw [hh] at h
        cases hr : StandingsPy.processInner ts gs with
        | error e => rw [hr] at h; exact absurd h (by simp [Bind.bind, Except.bind])
        | ok rest =>
          rw [hr] at h
          simp only [Bind.bind, Except.bind] at h
          cases h
          rw [flatRes_append, List.flatten_cons]
          exact (H g head hh).append (ih rest hr)
    · rw [if_neg hg] at h
      cases hr : StandingsPy.processInner ts gs with
      | error e => rw [hr] at h; exact absurd h (by simp [Bind.bind, Except.bind])
      | ok rest =>
        rw [hr] at h
        simp only [Bind.bind, Except.bind] at h
        cases h
        rw [flatRes_append, List.flatten_cons, flatRes_map_inl]
        exact (List.Perm.refl g).append (ih rest hr)

/-- The inner resolver returns (on success) a rearrangement of its input
teams: flattening the result is a permutation of the input. -/
theorem tiebreakerSortInner_perm (ts : List Tiebreaker) :
    ∀ (teams : List Team) (res : List (Team ⊕ List Team)),
      StandingsPy.tiebreakerSortInner teams ts = .ok res → (flatRes res).Perm teams := by
  induction ts with
  | nil =>
    intro teams res h
    rw [tiebreakerSortInner_nil] at h
    cases h
    simp [flatRes_cons, flatRes_nil]
  | cons t ts ih =>
    intro teams res h
    rw [tiebreakerSortInner_cons] at h
    cases hg : StandingsPy.sortGroupBasic teams t with
    | error e => rw [hg] at h; exact absurd h (by simp [Bind.bind, Except.bind])
    | ok gs =>
      rw [hg] at h
      simp only [Bind.bind, Except.bind] at h
      exact (processInner_perm_of ts ih gs res h).trans (sortGroupBasic_perm teams t gs hg)

/-! ## Names of aggregated teams, dictionary lookup, deduplication -/

theorem updTeam_names (l : List Team) (n : String) (f : Team → Team)
    (hf : ∀ t, (f t).name = t.name) :
    (updTeam l n f).map Team.name = l.map Team.name := by
  unfold updTeam
  rw [List.map_map]
  congr 1
  funext t
  by_cases h : t.name = n <;> simp [h, hf]

theorem homeUpdate_name (m : Match) (t : Team) : (homeUpdate m t).name = t.name := by
  unfold homeUpdate; split_ifs <;> rfl

theorem guestUpdate_name (m : Match) (t : Team) : (guestUpdate m t).name = t.name := by
  unfold guestUpdate; split_ifs <;> rfl

theorem ensureTeam_names (gen : String → List Char) (l : List Team) (n : String)
    (x : String) :
    (x ∈ (ensureTeam gen l n).map Team.name) ↔ (x ∈ l.map Team.name ∨ x = n) := by
  unfold ensureTeam
  split
  · rename_i hpres
    simp only [List.any_eq_true, decide_eq_true_eq] at hpres
    obtain ⟨t, ht, htn⟩ := hpres
    constructor
    · exact Or.inl
    · rintro (h | rfl)
      · exact h
      · exact List.mem_map.mpr ⟨t, ht, htn⟩
  · simp [mkTeam, or_comm]

theorem aggStep_names (gen : String → List Char) (l : List Team) (m : Match)
    (x : String) :
    (x ∈ (aggStep gen l m).map Team.name) ↔
      (x ∈ l.map Team.name ∨ x = m.home ∨ x = m.guest) := by
  unfold aggStep
  rw [updTeam_names _ _ _ (guestUpdate_name m), updTeam_names _ _ _ (homeUpdate_name m),
    ensureTeam_names, ensureTeam_names]
  tauto

/-- The aggregated table contains exactly one entry per name occurring as a
home or guest participant of some input match. -/
theorem createStandings_names (gen : String → List Char) (ms : List Match)
    (x : String) :
    (x ∈ (StandingsPy.createStandings gen ms).map Team.name) ↔
      ∃ m ∈ ms, x = m.home ∨ x = m.guest := by
  suffices h : ∀ (l : List Team),
      (x ∈ (ms.foldl (aggStep gen) l).map Team.name) ↔
        (x ∈ l.map Team.name ∨ ∃ m ∈ ms, x = m.home ∨ x = m.guest) by
    have := h []
    simpa using this
  induction ms with
  | nil => intro l; simp
  | cons m ms ih =>
    intro l
    rw [List.foldl_cons, ih, aggStep_names]
    constructor
    · rintro ((h | h | h) | ⟨m', hm', h⟩)
      · exact Or.inl h
      · exact Or.inr ⟨m, List.mem_cons_self m ms, Or.inl h⟩
      · exact Or.inr ⟨m, List.mem_cons_self m ms, Or.inr h⟩
      · exact Or.inr ⟨m', List.mem_cons_of_mem m hm', h⟩
    · rintro (h | ⟨m', hm', h⟩)
      · exact Or.inl (Or.inl h)
      · rcases List.mem_cons.mp hm' with rfl | hm'
        · exact Or.inl (Or.inr h)
        · exact Or.inr ⟨m', hm', h⟩

theorem lookupTeam_mem (teams : List Team) (n : String)
    (h : n ∈ teams.map Team.name) :
    lookupTeam teams n ∈ teams ∧ (lookupTeam teams n).name = n := by
  obtain ⟨t, ht, rfl⟩ := List.mem_map.mp h
  have hmem : t ∈ teams.filter (fun u => u.name = t.name) :=
    List.mem_filter.mpr ⟨ht, by simp⟩
  unfold lookupTeam
  cases hl : (teams.filter (fun u => u.name = t.name)).getLast? with
  | none =>
    rw [List.getLast?_eq_none_iff] at hl
    rw [hl] at hmem
    cases hmem
  | some u =>
    have hu : u ∈ teams.filter (fun v => v.name = t.name) :=
      List.mem_of_mem_getLast? hl
    rcases List.mem_filter.mp hu with ⟨humem, huname⟩
    simp only [Option.getD_some]
    exact ⟨humem, by simpa using huname⟩

/-- With pairwise-distinct names (the situation for aggregated tables), the
dictionary maps each team's name back to that very team object. -/
theorem lookupTeam_self (teams : List Team) (t : Team)
    (hnd : (teams.map Team.name).Nodup) (ht : t ∈ teams) :
    lookupTeam teams t.name = t := by
  have hfilter : teams.filter (fun u => u.name = t.name) = [t] := by
    induction teams with
    | nil => cases ht
    | cons u us ih =>
      rw [List.map_cons, List.nodup_cons] at hnd
      rcases List.mem_cons.mp ht with rfl | htus
      · have hne : us.filter (fun v => v.name = t.name) = [] := by
          apply List.filter_eq_nil_iff.mpr
          intro v hv
          simp only [decide_eq_true_eq]
          intro hvu
          exact hnd.1 (List.mem_map.mpr ⟨v, hv, hvu⟩)
        simp [List.filter_cons, hne]
      · have hne : ¬ u.name = t.name := by
          intro heq
          refine hnd.1 ?_
          rw [heq]
          exact List.mem_map.mpr ⟨t, htus, rfl⟩
        rw [List.filter_cons, if_neg (by simpa using hne)]
        exact ih hnd.2 htus
  rw [lookupTeam, hfilter]
  rfl

/-- Deduplication preserves membership exactly. -/
theorem mem_pyDedup (l : List Match) (m : Match) : m ∈ pyDedup l ↔ m ∈ l := by
  suffices h : ∀ (acc : List Match),
      (m ∈ l.foldl (fun acc m => if m ∈ acc then acc else acc ++ [m]) acc) ↔
        (m ∈ acc ∨ m ∈ l) by
    have := h []
    simpa [pyDedup] using this
  induction l with
  | nil => intro acc; simp
  | cons x l ih =>
    intro acc
    rw [List.foldl_cons, ih]
    by_cases hx : x ∈ acc
    · simp only [if_pos hx, List.mem_cons]
      constructor
      · rintro (h | h)
        · exact Or.inl h
        · exact Or.inr (Or.inr h)
      · rintro (h | rfl | h)
        · exact Or.inl h
        · exact Or.inl hx
        · exact Or.inr h
    · simp only [if_neg hx, List.mem_append, List.mem_singleton, List.mem_cons]
      tauto

/-- Membership in the head-to-head match filter. -/
theorem mem_mutualMatches (teams : List Team) (m : Match) :
    m ∈ StandingsPy.mutualMatches teams ↔
      ((∃ t ∈ teams, m ∈ t.«matches») ∧ (∃ t ∈ teams, t.name = m.home) ∧
        (∃ t ∈ teams, t.name = m.guest)) := by
  unfold StandingsPy.mutualMatches
  rw [List.mem_filter]
  simp only [List.mem_flatten, List.mem_map, Bool.and_eq_true, List.any_eq_true,
    decide_eq_true_eq]
  constructor
  · rintro ⟨⟨l, ⟨t, ht, rfl⟩, hml⟩, h1, h2⟩
    exact ⟨⟨t, ht, hml⟩, h1, h2⟩
  · rintro ⟨⟨t, ht, hml⟩, h1, h2⟩
    exact ⟨⟨t.«matches», ⟨t, ht, rfl⟩, hml⟩, h1, h2⟩

/-- Flattening the mapped-back groups of the head-to-head branch is the
name-lookup image of the flattened inner result. -/
theorem flatten_mapBack (teams : List Team) (res : List (Team ⊕ List Team)) :
    (res.map (fun e =>
      match e with
      | .inr subGroup => subGroup.map (fun t => lookupTeam teams t.name)
      | .inl subTeam => [lookupTeam teams subTeam.name])).flatten =
      (flatRes res).map (fun t => lookupTeam teams t.name) := by
  induction res with
  | nil => rfl
  | cons e res ih =>
    cases e <;> simp [flatRes_cons, ih]

deriving instance DecidableEq for Except

/-- Aggregate of team B over the single match `mAB`. -/
def aggB : Team :=
  { name := "B", games := 1, losses := 1, goals_against := 1,
    fairplay := 1, «matches» := [mAB], uuid := gen0 "B" }

/-! ## C5 -/

/-- C5: the head-to-head sub-table of a tied group is aggregated exactly
from the deduplicated set of matches recorded on the group's teams whose
home and guest participants are both group members; a match with any
participant outside the group never contributes. -/
theorem claim_C5 (gen : String → List Char) (teams : List Team) (s : Tiebreaker)
    (ss : List Tiebreaker) :
    (∀ m, m ∈ pyDedup (StandingsPy.mutualMatches teams) ↔
      ((∃ t ∈ teams, m ∈ t.«matches») ∧ (∃ t ∈ teams, t.name = m.home) ∧
        (∃ t ∈ teams, t.name = m.guest))) ∧
    StandingsPy.sortGroup gen teams .HEAD_TO_HEAD (some (s :: ss)) = (do
      let subStandings ← StandingsPy.tiebreakerSortInner
        (StandingsPy.createStandings gen (pyDedup (StandingsPy.mutualMatches teams)))
        (s :: ss)
      .ok (subStandings.map (fun e =>
        match e with
        | .inr subGroup => subGroup.map (fun t => lookupTeam teams t.name)
        | .inl subTeam => [lookupTeam teams subTeam.name]))) :=
  ⟨fun m => (mem_pyDedup _ m).trans (mem_mutualMatches teams m), rfl⟩

/-! ## C1 -/

/-- C1 (code behaviour at the failing input): for the tied group
`[tA, tB]` whose recorded matches are all against the outside team D, the
mutual-match set is empty, and `sort_group` with the HeadToHead rule returns
the EMPTY grouping `[]` — not the original unsplit group `[[tA, tB]]` — so
both teams vanish from the resolver's output, contradicting the claim (and
the log message "Continuing with whole table"). -/
theorem claim_C1_code_behavior :
    pyDedup (StandingsPy.mutualMatches [tA, tB]) = [] ∧
    StandingsPy.sortGroup gen0 [tA, tB] .HEAD_TO_HEAD (some [.POINTS]) = .ok [] ∧
    (Except.ok [] : Except String (List (List Team))) ≠ .ok [[tA, tB]] := by
  refine ⟨by decide, ?_, by decide⟩
  simp only [StandingsPy.sortGroup]
  rw [show StandingsPy.createStandings gen0
    (pyDedup (StandingsPy.mutualMatches [tA, tB])) = [] from by decide]
  rw [tiebreakerSortInner_cons]
  rw [show StandingsPy.sortGroupBasic [] .POINTS = .ok [] from by decide]
  simp only [Bind.bind, Except.bind]
  rw [processInner_nil]
  rfl

/-! ## C2 -/

/-- C2 (counterexample): a resolver call on a non-empty deque does NOT leave
the caller's tiebreak sequence unchanged — after
`tiebreaker_sort(teams, d)` with `d = deque([POINTS])` the caller's deque is
empty. -/
theorem claim_C2_counterexample :
    (StandingsPy.tiebreakerSortSt gen0 [tA] [.POINTS] none).2 ≠ [.POINTS] := by
  decide

/-- C2 (amended): the resolver's RESULT is a pure function of the argument
values (so two calls on equal team lists and equal sequence values return
identical results), but a call on a non-empty deque pops its first rule off
the caller's deque object; only the recursive sibling calls operate on
private copies.  The caller's deque after the call is the tail of what was
passed in. -/
theorem claim_C2_amended (gen : String → List Char) (teams : List Team)
    (tiebreakers : List Tiebreaker) (special : Option (List Tiebreaker)) :
    (StandingsPy.tiebreakerSortSt gen teams tiebreakers special).1 =
      StandingsPy.tiebreakerSort gen teams special tiebreakers ∧
    (StandingsPy.tiebreakerSortSt gen teams tiebreakers special).2 =
      tiebreakers.tail := by
  cases tiebreakers with
  | nil => exact ⟨(tiebreakerSort_nil gen teams special).symm, rfl⟩
  | cons t ts => exact ⟨rfl, rfl⟩

/-! ## C3 -/

/-- C3 (counterexample): with HeadToHead present in the tiebreak sequence
and no special sequence, `show_standings` does NOT fail: on a match list
whose teams are fully separated by points the HeadToHead rule is never
applied and the call succeeds (aggregation, moreover, had already run). -/
theorem claim_C3_counterexample :
    Tiebreaker.HEAD_TO_HEAD ∈ ([.POINTS, .HEAD_TO_HEAD] : List Tiebreaker) ∧
    StandingsPy.showStandings gen0 [mAB] [.POINTS, .HEAD_TO_HEAD] none =
      .ok [aggA, aggB] := by
  refine ⟨by decide, ?_⟩
  simp only [StandingsPy.showStandings]
  rw [show StandingsPy.createStandings gen0 [mAB] = [aggA, aggB] from by decide]
  rw [tiebreakerSort_cons]
  rw [show StandingsPy.sortGroup gen0 [aggA, aggB] .POINTS none =
    .ok [[aggA], [aggB]] from by decide]
  simp only [Bind.bind, Except.bind]
  rw [processGroups_cons, processGroups_cons, processGroups_nil]
  simp only [List.length_cons, List.length_nil, Bind.bind, Except.bind]
  rw [if_neg (by decide), if_neg (by decide)]
  simp only [Bind.bind, Except.bind]
  decide

/-- C3 (amended): the configuration check is performed only when the
HeadToHead rule is actually applied to a group during resolution (after
aggregation): whenever `sort_group` is invoked with HeadToHead and an absent
or empty special sequence it fails with the configuration `ValueError`. -/
theorem claim_C3_amended (gen : String → List Char) (teams : List Team)
    (special : Option (List Tiebreaker))
    (h : special = none ∨ special = some []) :
    StandingsPy.sortGroup gen teams .HEAD_TO_HEAD special =
      .error StandingsPy.noSpecialMsg := by
  rcases h with rfl | rfl <;> rfl

/-- Witness for the amended C3 at a concrete input. -/
theorem claim_C3_amended_witness :
    ((none : Option (List Tiebreaker)) = none ∨
      (none : Option (List Tiebreaker)) = some []) ∧
    StandingsPy.sortGroup gen0 [tA, tB] .HEAD_TO_HEAD none =
      .error StandingsPy.noSpecialMsg :=
  ⟨Or.inl rfl, claim_C3_amended gen0 [tA, tB] none (Or.inl rfl)⟩

/-! ## C4 -/

/-- C4 (counterexample): no configuration-time validation of the special
sequence exists — a run whose special sequence contains HeadToHead succeeds
untouched whenever the inner resolution never reaches that rule. -/
theorem claim_C4_counterexample :
    Tiebreaker.HEAD_TO_HEAD ∈ ([.HEAD_TO_HEAD] : List Tiebreaker) ∧
    StandingsPy.showStandings gen0 [mAB] [.POINTS] (some [.HEAD_TO_HEAD]) =
      .ok [aggA, aggB] := by
  refine ⟨by decide, ?_⟩
  simp only [StandingsPy.showStandings]
  rw [show StandingsPy.createStandings gen0 [mAB] = [aggA, aggB] from by decide]
  rw [tiebreakerSort_cons]
  rw [show StandingsPy.sortGroup gen0 [aggA, aggB] .POINTS (some [.HEAD_TO_HEAD]) =
    .ok [[aggA], [aggB]] from by decide]
  simp only [Bind.bind, Except.bind]
  rw [processGroups_cons, processGroups_cons, processGroups_nil]
  simp only [List.length_cons, List.length_nil, Bind.bind, Except.bind]
  rw [if_neg (by decide), if_neg (by decide)]
  simp only [Bind.bind, Except.bind]
  decide

/-- C4 (amended): HeadToHead nesting is prevented not at
configuration-validation time but at application time: the inner
(special-sequence) resolution forwards no special sequence, so the moment it
applies a HeadToHead rule it fails with the configuration `ValueError`;
head-to-head recursion therefore can never nest. -/
theorem claim_C4_amended (teams : List Team) (ts : List Tiebreaker) :
    StandingsPy.tiebreakerSortInner teams (.HEAD_TO_HEAD :: ts) =
      .error StandingsPy.noSpecialMsg := by
  rw [tiebreakerSortInner_cons]
  rfl

/-! ## C6 -/

/-- Evaluation of the head-to-head branch on the group `[uA, uB, uC]` in
which only A and B played each other: team C is silently dropped. -/
theorem sortGroup_uABC_eval :
    StandingsPy.sortGroup gen0 [uA, uB, uC] .HEAD_TO_HEAD (some [.POINTS]) =
      .ok [[uA], [uB]] := by
  simp only [StandingsPy.sortGroup]
  rw [show StandingsPy.createStandings gen0
    (pyDedup (StandingsPy.mutualMatches [uA, uB, uC])) = [aggA, aggB] from by decide]
  rw [tiebreakerSortInner_cons]
  rw [show StandingsPy.sortGroupBasic [aggA, aggB] .POINTS =
    .ok [[aggA], [aggB]] from by decide]
  simp only [Bind.bind, Except.bind]
  rw [processInner_cons, processInner_cons, processInner_nil]
  simp only [List.length_cons, List.length_nil, Bind.bind, Except.bind]
  rw [if_neg (by decide), if_neg (by decide)]
  simp only [Bind.bind, Except.bind]
  decide

/-- C6 (counterexample): the grouping returned by the HeadToHead rule on the
tied group `[uA, uB, uC]` (non-empty mutual-match set: A-vs-B) does NOT
contain exactly the original team objects of the input group — team C, which
appears in no mutual match, is missing from the output. -/
theorem claim_C6_counterexample :
    StandingsPy.sortGroup gen0 [uA, uB, uC] .HEAD_TO_HEAD (some [.POINTS]) =
      .ok [[uA], [uB]] ∧
    uC ∈ ([uA, uB, uC] : List Team) ∧
    uC ∉ ([[uA], [uB]] : List (List Team)).flatten :=
  ⟨sortGroup_uABC_eval, by decide, by decide⟩

/-- C6 (amended): on a tied group with pairwise-distinct team names, the
grouping returned by the HeadToHead rule consists exclusively of original
team objects of the input group (so all their full-table fields are
unchanged), and it contains exactly those group members whose name occurs in
at least one mutual match — members with no mutual match are dropped. -/
theorem claim_C6_amended (gen : String → List Char) (teams : List Team)
    (s : Tiebreaker) (ss : List Tiebreaker) (gs : List (List Team))
    (hnd : (teams.map Team.name).Nodup)
    (h : StandingsPy.sortGroup gen teams .HEAD_TO_HEAD (some (s :: ss)) = .ok gs) :
    (∀ t ∈ gs.flatten, t ∈ teams) ∧
    (∀ t ∈ teams, (t ∈ gs.flatten ↔
      ∃ m ∈ pyDedup (StandingsPy.mutualMatches teams),
        t.name = m.home ∨ t.name = m.guest)) := by
  simp only [StandingsPy.sortGroup] at h
  cases hin : StandingsPy.tiebreakerSortInner
      (StandingsPy.createStandings gen (pyDedup (StandingsPy.mutualMatches teams)))
      (s :: ss) with
  | error e =>
    rw [hin] at h
    exact absurd h (by simp [Bind.bind, Except.bind])
  | ok res =>
    rw [hin] at h
    simp only [Bind.bind, Except.bind] at h
    injection h with h
    subst h
    rw [flatten_mapBack]
    have hperm := tiebreakerSortInner_perm (s :: ss) _ res hin
    -- every sub-team's name occurs in a mutual match and among the group names
    have hname_of : ∀ u ∈ flatRes res,
        (∃ m ∈ pyDedup (StandingsPy.mutualMatches teams),
          u.name = m.home ∨ u.name = m.guest) ∧ u.name ∈ teams.map Team.name := by
      intro u hu
      have husub := hperm.mem_iff.mp hu
      have : u.name ∈ (StandingsPy.createStandings gen
          (pyDedup (StandingsPy.mutualMatches teams))).map Team.name :=
        List.mem_map.mpr ⟨u, husub, rfl⟩
      obtain ⟨m, hm, hside⟩ := (createStandings_names gen _ u.name).mp this
      refine ⟨⟨m, hm, hside⟩, ?_⟩
      have hmm := (mem_pyDedup _ m).mp hm
      obtain ⟨-, ⟨t1, ht1, h1⟩, ⟨t2, ht2, h2⟩⟩ := (mem_mutualMatches teams m).mp hmm
      rcases hside with hh | hh
      · exact List.mem_map.mpr ⟨t1, ht1, h1.trans hh.symm⟩
      · exact List.mem_map.mpr ⟨t2, ht2, h2.trans hh.symm⟩
    constructor
    · intro t ht
      obtain ⟨u, hu, rfl⟩ := List.mem_map.mp ht
      exact (lookupTeam_mem teams u.name (hname_of u hu).2).1
    · intro t ht
      constructor
      · intro htin
        obtain ⟨u, hu, heq⟩ := List.mem_map.mp htin
        obtain ⟨⟨m, hm, hside⟩, hnames⟩ := hname_of u hu
        have hlname : (lookupTeam teams u.name).name = u.name :=
          (lookupTeam_mem teams u.name hnames).2
        refine ⟨m, hm, ?_⟩
        rw [← heq] at *
        rw [hlname] at *
        exact hside
      · rintro ⟨m, hm, hside⟩
        have htname : t.name ∈ (StandingsPy.createStandings gen
            (pyDedup (StandingsPy.mutualMatches teams))).map Team.name :=
          (createStandings_names gen _ t.name).mpr ⟨m, hm, hside⟩
        obtain ⟨u, husub, huname⟩ := List.mem_map.mp htname
        have hu : u ∈ flatRes res := hperm.mem_iff.mpr husub
        have : lookupTeam teams u.name = t := by
          rw [huname]
          exact lookupTeam_self teams t hnd ht
        exact List.mem_map.mpr ⟨u, hu, this⟩

/-- Witness for the amended C6 at a concrete input. -/
theorem claim_C6_amended_witness :
    (([uA, uB, uC] : List Team).map Team.name).Nodup ∧
    StandingsPy.sortGroup gen0 [uA, uB, uC] .HEAD_TO_HEAD (some [.POINTS]) =
      .ok [[uA], [uB]] ∧
    ((∀ t ∈ ([[uA], [uB]] : List (List Team)).flatten, t ∈ [uA, uB, uC]) ∧
    (∀ t ∈ ([uA, uB, uC] : List Team), (t ∈ ([[uA], [uB]] : List (List Team)).flatten ↔
      ∃ m ∈ pyDedup (StandingsPy.mutualMatches [uA, uB, uC]),
        t.name = m.home ∨ t.name = m.guest))) :=
  ⟨by decide, sortGroup_uABC_eval,
    claim_C6_amended gen0 [uA, uB, uC] .POINTS [] [[uA], [uB]] (by decide)
      sortGroup_uABC_eval⟩

/-! ## Hexadecimal tokens: string order agrees with numeric order -/

theorem mem_hexChars_of_isHexDigit (c : Char) (h : isHexDigit c = true) :
    c ∈ hexChars := by
  simpa [isHexDigit, List.contains_iff_exists_mem_beq] using h

theorem hexVal_lt_16 (c : Char) (h : isHexDigit c = true) : hexVal c < 16 := by
  have hc := mem_hexChars_of_isHexDigit c h
  fin_cases hc <;> decide

theorem hexVal_order (c d : Char) (hc : isHexDigit c = true)
    (hd : isHexDigit d = true) : c < d ↔ hexVal c < hexVal d := by
  have hc' := mem_hexChars_of_isHexDigit c hc
  have hd' := mem_hexChars_of_isHexDigit d hd
  fin_cases hc' <;> fin_cases hd' <;> decide

theorem hexVal_inj (c d : Char) (hc : isHexDigit c = true)
    (hd : isHexDigit d = true) (h : hexVal c = hexVal d) : c = d := by
  have hc' := mem_hexChars_of_isHexDigit c hc
  have hd' := mem_hexChars_of_isHexDigit d hd
  revert h
  fin_cases hc' <;> fin_cases hd' <;> decide

theorem hexToNat_foldl_acc (cs : List Char) :
    ∀ acc : Nat, cs.foldl (fun acc c => 16 * acc + hexVal c) acc =
      acc * 16 ^ cs.length + hexToNat cs := by
  induction cs with
  | nil => intro acc; simp [hexToNat]
  | cons d cs ih =>
    intro acc
    rw [List.foldl_cons, ih]
    have h0 : hexToNat (d :: cs) = (16 * 0 + hexVal d) * 16 ^ cs.length + hexToNat cs := by
      rw [hexToNat, List.foldl_cons, ih]
    rw [h0, List.length_cons, pow_succ]
    ring

theorem hexToNat_cons (c : Char) (cs : List Char) :
    hexToNat (c :: cs) = hexVal c * 16 ^ cs.length + hexToNat cs := by
  rw [hexToNat, List.foldl_cons, hexToNat_foldl_acc]
  ring_nf

/-- Base arithmetic: adding a smaller leading digit keeps the value smaller,
whatever the tails contribute below the base power. -/
theorem base_lt (a b x y B : Nat) (hx : x < B) (hab : a < b) :
    a * B + x < b * B + y := by
  calc a * B + x < a * B + B := by omega
    _ = (a + 1) * B := by ring
    _ ≤ b * B := Nat.mul_le_mul_right B (Nat.succ_le_of_lt hab)
    _ ≤ b * B + y := Nat.le_add_right _ _

theorem base_inj (a b x y B : Nat) (hx : x < B) (hy : y < B)
    (h : a * B + x = b * B + y) : a = b ∧ x = y := by
  have hab : a = b := by
    by_contra hne
    rcases Nat.lt_or_ge a b with hlt | hge
    · exact absurd h (Nat.ne_of_lt (base_lt a b x y B hx hlt))
    · have hba : b < a := lt_of_le_of_ne hge fun e => hne e.symm
      exact absurd h (Nat.ne_of_gt (base_lt b a y x B hy hba))
  subst hab
  omega

theorem hexToNat_lt (cs : List Char) (h : ∀ c ∈ cs, isHexDigit c = true) :
    hexToNat cs < 16 ^ cs.length := by
  induction cs with
  | nil => simp [hexToNat]
  | cons c cs ih =>
    rw [hexToNat_cons, List.length_cons, pow_succ]
    have hc := hexVal_lt_16 c (h c (List.mem_cons_self c cs))
    have hcs := ih (fun d hd => h d (List.mem_cons_of_mem c hd))
    calc hexVal c * 16 ^ cs.length + hexToNat cs
        < hexVal c * 16 ^ cs.length + 16 ^ cs.length := by omega
      _ = (hexVal c + 1) * 16 ^ cs.length := by ring
      _ ≤ 16 * 16 ^ cs.length := Nat.mul_le_mul_right _ (Nat.succ_le_of_lt hc)
      _ = 16 ^ cs.length * 16 := by ring

/-- Python string comparison on equal-length hexadecimal strings agrees with
comparison of their `int(s, 16)` values. -/
theorem strLt_iff_hexToNat (s : List Char) :
    ∀ (t : List Char), s.length = t.length →
      (∀ c ∈ s, isHexDigit c = true) → (∀ c ∈ t, isHexDigit c = true) →
      (strLt s t = true ↔ hexToNat s < hexToNat t) := by
  induction s with
  | nil =>
    intro t hlen _ _
    cases t with
    | nil => simp [strLt, hexToNat]
    | cons d ds => simp at hlen
  | cons c cs ih =>
    intro t hlen hs ht
    cases t with
    | nil => simp at hlen
    | cons d ds =>
      have hlen' : cs.length = ds.length := by simpa using hlen
      have hc := hs c (List.mem_cons_self c cs)
      have hd := ht d (List.mem_cons_self d ds)
      have hcs : ∀ x ∈ cs, isHexDigit x = true :=
        fun x hx => hs x (List.mem_cons_of_mem c hx)
      have hds : ∀ x ∈ ds, isHexDigit x = true :=
        fun x hx => ht x (List.mem_cons_of_mem d hx)
      rw [hexToNat_cons, hexToNat_cons, ← hlen']
      by_cases h1 : c < d
      · have hv : hexVal c < hexVal d := (hexVal_order c d hc hd).mp h1
        simp only [strLt, if_pos h1, true_iff]
        exact base_lt _ _ _ _ _ (hexToNat_lt cs hcs) hv
      · by_cases h2 : d < c
        · have hv : hexVal d < hexVal c := (hexVal_order d c hd hc).mp h2
          simp only [strLt, if_neg h1, if_pos h2, Bool.false_eq_true, false_iff, not_lt]
          have hxds : hexToNat ds < 16 ^ cs.length := by
            rw [hlen']; exact hexToNat_lt ds hds
          exact le_of_lt (base_lt (hexVal d) (hexVal c) (hexToNat ds) (hexToNat cs)
            (16 ^ cs.length) hxds hv)
        · have hvc : ¬ hexVal c < hexVal d := fun hv => h1 ((hexVal_order c d hc hd).mpr hv)
          have hvd : ¬ hexVal d < hexVal c := fun hv => h2 ((hexVal_order d c hd hc).mpr hv)
          have hveq : hexVal c = hexVal d := by omega
          simp only [strLt, if_neg h1, if_neg h2]
          rw [ih ds hlen' hcs hds, hveq]
          constructor <;> intro h <;> omega

/-- `int(s, 16)` is injective on equal-length hexadecimal strings. -/
theorem hexToNat_inj (s : List Char) :
    ∀ (t : List Char), s.length = t.length →
      (∀ c ∈ s, isHexDigit c = true) → (∀ c ∈ t, isHexDigit c = true) →
      hexToNat s = hexToNat t → s = t := by
  induction s with
  | nil =>
    intro t hlen _ _ _
    cases t with
    | nil => rfl
    | cons d ds => simp at hlen
  | cons c cs ih =>
    intro t hlen hs ht heq
    cases t with
    | nil => simp at hlen
    | cons d ds =>
      have hlen' : cs.length = ds.length := by simpa using hlen
      have hc := hs c (List.mem_cons_self c cs)
      have hd := ht d (List.mem_cons_self d ds)
      have hcs : ∀ x ∈ cs, isHexDigit x = true :=
        fun x hx => hs x (List.mem_cons_of_mem c hx)
      have hds : ∀ x ∈ ds, isHexDigit x = true :=
        fun x hx => ht x (List.mem_cons_of_mem d hx)
      rw [hexToNat_cons, hexToNat_cons, ← hlen'] at heq
      have hxds : hexToNat ds < 16 ^ cs.length := by
        rw [hlen']; exact hexToNat_lt ds hds
      obtain ⟨hveq, htails⟩ := base_inj (hexVal c) (hexVal d) (hexToNat cs)
        (hexToNat ds) (16 ^ cs.length) (hexToNat_lt cs hcs) hxds heq
      rw [hexVal_inj c d hc hd hveq, ih ds hlen' hcs hds htails]

/-! ## Congruence of sorting and grouping in the comparison relation -/

theorem pyInsert_congr (r₁ r₂ : Team → Team → Bool) (a : Team) (l : List Team)
    (h : ∀ b ∈ l, r₁ a b = r₂ a b) : pyInsert r₁ a l = pyInsert r₂ a l := by
  induction l with
  | nil => rfl
  | cons b l ih =>
    have hb := h b (List.mem_cons_self b l)
    have ih' := ih (fun x hx => h x (List.mem_cons_of_mem b hx))
    cases hr : r₂ a b with
    | false => simp [pyInsert, hb, hr, ih']
    | true => simp [pyInsert, hb, hr]

theorem pySortedRev_congr (r₁ r₂ : Team → Team → Bool) (l : List Team)
    (h : ∀ a ∈ l, ∀ b ∈ l, r₁ a b = r₂ a b) :
    pySortedRev r₁ l = pySortedRev r₂ l := by
  induction l with
  | nil => rfl
  | cons a l ih =>
    show pyInsert r₁ a (pySortedRev r₁ l) = pyInsert r₂ a (pySortedRev r₂ l)
    rw [ih (fun x hx y hy =>
      h x (List.mem_cons_of_mem a hx) y (List.mem_cons_of_mem a hy))]
    exact pyInsert_congr r₁ r₂ a _ (fun b hb =>
      h a (List.mem_cons_self a l) b
        (List.mem_cons_of_mem a ((mem_pySortedRev r₂ l b).mp hb)))

theorem takeWhile_congr {α : Type} {p q : α → Bool} (l : List α)
    (h : ∀ a ∈ l, p a = q a) : l.takeWhile p = l.takeWhile q := by
  induction l with
  | nil => rfl
  | cons a l ih =>
    have ha := h a (List.mem_cons_self a l)
    have ih' := ih (fun x hx => h x (List.mem_cons_of_mem a hx))
    rw [List.takeWhile_cons, List.takeWhile_cons, ha, ih']

theorem dropWhile_congr {α : Type} {p q : α → Bool} (l : List α)
    (h : ∀ a ∈ l, p a = q a) : l.dropWhile p = l.dropWhile q := by
  induction l with
  | nil => rfl
  | cons a l ih =>
    have ha := h a (List.mem_cons_self a l)
    have ih' := ih (fun x hx => h x (List.mem_cons_of_mem a hx))
    rw [List.dropWhile_cons, List.dropWhile_cons, ha, ih']

theorem groupsOf_congr {κ₁ κ₂ : Type} [DecidableEq κ₁] [DecidableEq κ₂]
    (key₁ : Team → κ₁) (key₂ : Team → κ₂) (l : List Team)
    (h : ∀ a ∈ l, ∀ b ∈ l, (key₁ a = key₁ b) ↔ (key₂ a = key₂ b)) :
    groupsOf key₁ l = groupsOf key₂ l := by
  induction l using groupsOf.induct key₁ with
  | case1 => rw [groupsOf_nil, groupsOf_nil]
  | case2 t ts ih =>
    rw [groupsOf_cons, groupsOf_cons]
    have hpred : ∀ u ∈ ts, (decide (key₁ u = key₁ t)) = (decide (key₂ u = key₂ t)) := by
      intro u hu
      exact decide_eq_decide.mpr
        (h u (List.mem_cons_of_mem t hu) t (List.mem_cons_self t ts))
    have hdw : ts.dropWhile (fun u => decide (key₁ u = key₁ t)) =
        ts.dropWhile (fun u => decide (key₂ u = key₂ t)) := dropWhile_congr ts hpred
    have hrec := ih (fun a ha b hb =>
      h a (List.mem_cons_of_mem t ((List.dropWhile_sublist _).subset ha))
        b (List.mem_cons_of_mem t ((List.dropWhile_sublist _).subset hb)))
    rw [takeWhile_congr ts hpred, hrec, hdw]

theorem groupByValue_congr {κ₁ κ₂ : Type} [DecidableEq κ₁] [DecidableEq κ₂]
    (key₁ : Team → κ₁) (key₂ : Team → κ₂) (l : List Team)
    (h : ∀ a ∈ l, ∀ b ∈ l, (key₁ a = key₁ b) ↔ (key₂ a = key₂ b)) :
    groupByValue key₁ l = groupByValue key₂ l := by
  rw [groupByValue_eq_groupsOf, groupByValue_eq_groupsOf]
  exact groupsOf_congr key₁ key₂ l h

/-! ## Equation lemmas for the `table.py` resolver -/

theorem tpInner_nil (teams : List Team) :
    TablePy.tiebreakerSortInner teams [] = .ok [.inr teams] := by
  rw [TablePy.tiebreakerSortInner]

theorem tpInner_cons (teams : List Team) (t : Tiebreaker) (ts : List Tiebreaker) :
    TablePy.tiebreakerSortInner teams (t :: ts) = (do
      let groups ← TablePy.sortGroupBasic teams t
      TablePy.processInner ts groups) := by
  rw [TablePy.tiebreakerSortInner]

theorem tpProcessInner_nil (ts : List Tiebreaker) :
    TablePy.processInner ts [] = .ok [] := by
  rw [TablePy.processInner]

theorem tpProcessInner_cons (ts : List Tiebreaker) (g : List Team)
    (gs : List (List Team)) :
    TablePy.processInner ts (g :: gs) = (do
      let head ← if 1 < g.length then TablePy.tiebreakerSortInner g ts
        else .ok (g.map .inl)
      let rest ← TablePy.processInner ts gs
      .ok (head ++ rest)) := by
  rw [TablePy.processInner]

theorem tpSort_nil (gen : String → List Char) (teams : List Team)
    (special : Option (List Tiebreaker)) :
    TablePy.tiebreakerSort gen teams special [] = .ok [.inr teams] := by
  rw [TablePy.tiebreakerSort]

theorem tpSort_cons (gen : String → List Char) (teams : List Team)
    (special : Option (List Tiebreaker)) (t : Tiebreaker) (ts : List Tiebreaker) :
    TablePy.tiebreakerSort gen teams special (t :: ts) = (do
      let groups ← TablePy.sortGroup gen teams t special
      TablePy.processGroups gen special ts groups) := by
  rw [TablePy.tiebreakerSort]

theorem tpProcessGroups_nil (gen : String → List Char)
    (special : Option (List Tiebreaker)) (ts : List Tiebreaker) :
    TablePy.processGroups gen special ts [] = .ok [] := by
  rw [TablePy.processGroups]

theorem tpProcessGroups_cons (gen : String → List Char)
    (special : Option (List Tiebreaker)) (ts : List Tiebreaker) (g : List Team)
    (gs : List (List Team)) :
    TablePy.processGroups gen special ts (g :: gs) = (do
      let head ← if 1 < g.length then TablePy.tiebreakerSort gen g special ts
        else .ok (g.map .inl)
      let rest ← TablePy.processGroups gen special ts gs
      .ok (head ++ rest)) := by
  rw [TablePy.processGroups]

/-! ## The two implementations agree -/

theorem homeUpdate_uuid (m : Match) (t : Team) : (homeUpdate m t).uuid = t.uuid := by
  unfold homeUpdate; split_ifs <;> rfl

theorem guestUpdate_uuid (m : Match) (t : Team) : (guestUpdate m t).uuid = t.uuid := by
  unfold guestUpdate; split_ifs <;> rfl

/-- Every aggregated team's token comes from the generator, hence is a
well-formed five-character hexadecimal string. -/
theorem createStandings_uuid_hex (gen : String → List Char)
    (hgen : ∀ n, isHex5 (gen n)) (ms : List Match) :
    ∀ t ∈ StandingsPy.createStandings gen ms, isHex5 t.uuid := by
  suffices h : ∀ (l : List Team), (∀ t ∈ l, isHex5 t.uuid) →
      ∀ t ∈ ms.foldl (aggStep gen) l, isHex5 t.uuid by
    exact h [] (by simp)
  have hupd : ∀ (l : List Team) (n : String) (f : Team → Team),
      (∀ t, (f t).uuid = t.uuid) → (∀ t ∈ l, isHex5 t.uuid) →
      ∀ t ∈ updTeam l n f, isHex5 t.uuid := by
    intro l n f hf hl t ht
    obtain ⟨u, hu, hut⟩ := List.mem_map.mp ht
    by_cases hn : u.name = n
    · simp only [hn, if_pos] at hut
      rw [← hut, hf u]
      exact hl u hu
    · simp only [hn, if_neg, not_false_iff] at hut
      rw [← hut]
      exact hl u hu
  have hens : ∀ (l : List Team) (n : String), (∀ t ∈ l, isHex5 t.uuid) →
      ∀ t ∈ ensureTeam gen l n, isHex5 t.uuid := by
    intro l n hl t ht
    unfold ensureTeam at ht
    split at ht
    · exact hl t ht
    · rcases List.mem_append.mp ht with h' | h'
      · exact hl t h'
      · rcases List.mem_singleton.mp h' with rfl
        exact hgen n
  induction ms with
  | nil => intro l hl; simpa using hl
  | cons m ms ih =>
    intro l hl
    refine ih (aggStep gen l m) ?_
    unfold aggStep
    exact hupd _ _ _ (guestUpdate_uuid m)
      (hupd _ _ _ (homeUpdate_uuid m) (hens _ m.guest (hens _ m.home hl)))

/-- Agreement of the two RANDOM comparison relations on five-hex teams. -/
theorem random_rel_agree (a b : Team) (ha : isHex5 a.uuid) (hb : isHex5 b.uuid) :
    (!strLt a.uuid b.uuid) =
      decide ((hexToNat b.uuid : Int) ≤ (hexToNat a.uuid : Int)) := by
  obtain ⟨hal, hah⟩ := ha
  obtain ⟨hbl, hbh⟩ := hb
  have hlen : a.uuid.length = b.uuid.length := by rw [hal, hbl]
  have hiff := strLt_iff_hexToNat a.uuid b.uuid hlen hah hbh
  cases hs : strLt a.uuid b.uuid with
  | true =>
    have := hiff.mp hs
    simp only [Bool.not_true]
    symm
    rw [decide_eq_false_iff_not]
    intro hle
    rw [Int.ofNat_le] at hle
    omega
  | false =>
    have hnlt : ¬ hexToNat a.uuid < hexToNat b.uuid := fun hlt => by
      rw [← hiff] at hlt
      rw [hs] at hlt
      cases hlt
    simp only [Bool.not_false]
    symm
    rw [decide_eq_true_eq, Int.ofNat_le]
    omega

/-- Agreement of the two RANDOM grouping keys on five-hex teams. -/
theorem random_key_agree (a b : Team) (ha : isHex5 a.uuid) (hb : isHex5 b.uuid) :
    (a.uuid = b.uuid) ↔ ((hexToNat a.uuid : Int) = (hexToNat b.uuid : Int)) := by
  constructor
  · intro h; rw [h]
  · intro h
    obtain ⟨hal, hah⟩ := ha
    obtain ⟨hbl, hbh⟩ := hb
    have hlen : a.uuid.length = b.uuid.length := by rw [hal, hbl]
    have : hexToNat a.uuid = hexToNat b.uuid := by exact_mod_cast h
    exact hexToNat_inj a.uuid b.uuid hlen hah hbh this

/-- `sort_group(teams, rule, None)` computes the same grouping in both
files, provided all tokens are well-formed. -/
theorem sortGroupBasic_eq (teams : List Team)
    (hhex : ∀ t ∈ teams, isHex5 t.uuid) (rule : Tiebreaker) :
    TablePy.sortGroupBasic teams rule = StandingsPy.sortGroupBasic teams rule := by
  cases rule
  case HEAD_TO_HEAD => rfl
  case POINTS => rfl
  case GOAL_DIFFERENCE => rfl
  case GOALS_FOR => rfl
  case WINS => rfl
  case AWAY_GOALS_FOR => rfl
  case RANDOM =>
    show Except.ok _ = Except.ok _
    congr 1
    unfold StandingsPy.sortGroupMetric
    have hsort : pySortedRev (fun a b => !strLt a.uuid b.uuid) teams =
        pySortedRev (fun a b => decide (StandingsPy.getValue .RANDOM b ≤
          StandingsPy.getValue .RANDOM a)) teams :=
      pySortedRev_congr _ _ teams (fun a ha b hb =>
        random_rel_agree a b (hhex a ha) (hhex b hb))
    rw [hsort]
    apply groupByValue_congr
    intro a ha b hb
    rw [mem_pySortedRev] at ha hb
    exact random_key_agree a b (hhex a (ha)) (hhex b (hb))

theorem processInner_eq_of (ts : List Tiebreaker)
    (H : ∀ teams, (∀ t ∈ teams, isHex5 t.uuid) →
      TablePy.tiebreakerSortInner teams ts = StandingsPy.tiebreakerSortInner teams ts) :
    ∀ gs : List (List Team), (∀ g ∈ gs, ∀ t ∈ g, isHex5 t.uuid) →
      TablePy.processInner ts gs = StandingsPy.processInner ts gs := by
  intro gs
  induction gs with
  | nil => intro _; rw [tpProcessInner_nil, processInner_nil]
  | cons g gs ih =>
    intro hx
    rw [tpProcessInner_cons, processInner_cons]
    rw [ih (fun g' hg' => hx g' (List.mem_cons_of_mem g hg'))]
    by_cases hg : 1 < g.length
    · rw [if_pos hg, if_pos hg, H g (hx g (List.mem_cons_self g gs))]
    · rw [if_neg hg, if_neg hg]

theorem tiebreakerSortInner_eq (ts : List Tiebreaker) :
    ∀ teams, (∀ t ∈ teams, isHex5 t.uuid) →
      TablePy.tiebreakerSortInner teams ts = StandingsPy.tiebreakerSortInner teams ts := by
  induction ts with
  | nil => intro teams _; rw [tpInner_nil, tiebreakerSortInner_nil]
  | cons t ts ih =>
    intro teams hx
    rw [tpInner_cons, tiebreakerSortInner_cons, sortGroupBasic_eq teams hx t]
    cases hsg : StandingsPy.sortGroupBasic teams t with
    | error e => rfl
    | ok gs =>
      have hperm := sortGroupBasic_perm teams t gs hsg
      have hmem : ∀ g ∈ gs, ∀ t' ∈ g, isHex5 t'.uuid := by
        intro g hg t' ht'
        have : t' ∈ gs.flatten := List.mem_flatten.mpr ⟨g, hg, ht'⟩
        exact hx t' (hperm.mem_iff.mp this)
      show (Except.ok gs >>= _) = (Except.ok gs >>= _)
      simp only [Bind.bind, Except.bind]
      exact processInner_eq_of ts ih gs hmem

/-- Every team in a `sort_group` output group is a team of the input
group. -/
theorem sortGroup_flatten_mem (gen : String → List Char) (teams : List Team)
    (rule : Tiebreaker) (special : Option (List Tiebreaker)) (gs : List (List Team))
    (h : StandingsPy.sortGroup gen teams rule special = .ok gs) :
    ∀ t ∈ gs.flatten, t ∈ teams := by
  have hmetric : ∀ (key : Team → Int),
      Except.ok (StandingsPy.sortGroupMetric key teams) =
        (Except.ok gs : Except String (List (List Team))) →
      ∀ t ∈ gs.flatten, t ∈ teams := by
    intro key hk t ht
    injection hk with hk
    subst hk
    rw [StandingsPy.sortGroupMetric, groupByValue_eq_groupsOf, groupsOf_flatten] at ht
    exact (pySortedRev_perm _ teams).mem_iff.mp ht
  cases rule
  case POINTS => exact hmetric _ h
  case GOAL_DIFFERENCE => exact hmetric _ h
  case GOALS_FOR => exact hmetric _ h
  case WINS => exact hmetric _ h
  case AWAY_GOALS_FOR => exact hmetric _ h
  case RANDOM => exact hmetric _ h
  case HEAD_TO_HEAD =>
    cases special with
    | none => exact absurd h (by simp [StandingsPy.sortGroup])
    | some l =>
      cases l with
      | nil => exact absurd h (by simp [StandingsPy.sortGroup])
      | cons s ss =>
        simp only [StandingsPy.sortGroup] at h
        cases hin : StandingsPy.tiebreakerSortInner
            (StandingsPy.createStandings gen
              (pyDedup (StandingsPy.mutualMatches teams))) (s :: ss) with
        | error e =>
          rw [hin] at h
          exact absurd h (by simp [Bind.bind, Except.bind])
        | ok res =>
          rw [hin] at h
          simp only [Bind.bind, Except.bind] at h
          injection h with h
          subst h
          intro t ht
          rw [flatten_mapBack] at ht
          obtain ⟨u, hu, rfl⟩ := List.mem_map.mp ht
          have hperm := tiebreakerSortInner_perm (s :: ss) _ res hin
          have husub := hperm.mem_iff.mp hu
          have huname : u.name ∈ (StandingsPy.createStandings gen
              (pyDedup (StandingsPy.mutualMatches teams))).map Team.name :=
            List.mem_map.mpr ⟨u, husub, rfl⟩
          obtain ⟨m, hm, hside⟩ := (createStandings_names gen _ u.name).mp huname
          obtain ⟨-, ⟨t1, ht1, h1⟩, ⟨t2, ht2, h2⟩⟩ :=
            (mem_mutualMatches teams m).mp ((mem_pyDedup _ m).mp hm)
          have hnames : u.name ∈ teams.map Team.name := by
            rcases hside with hh | hh
            · exact List.mem_map.mpr ⟨t1, ht1, h1.trans hh.symm⟩
            · exact List.mem_map.mpr ⟨t2, ht2, h2.trans hh.symm⟩
          exact (lookupTeam_mem teams u.name hnames).1

theorem createTable_eq (gen : String → List Char) (ms : List Match) :
    (TablePy.createTable gen ms).map Prod.snd = StandingsPy.createStandings gen ms := by
  unfold TablePy.createTable
  rw [List.map_map]
  have h1 : (Prod.snd ∘ fun t : Team => (t.name, t)) = id := rfl
  rw [h1, List.map_id]
  rfl

/-- `sort_group` computes the same grouping in both files. -/
theorem sortGroup_eq (gen : String → List Char) (teams : List Team)
    (rule : Tiebreaker) (special : Option (List Tiebreaker))
    (hgen : ∀ n, isHex5 (gen n)) (hhex : ∀ t ∈ teams, isHex5 t.uuid) :
    TablePy.sortGroup gen teams rule special =
      StandingsPy.sortGroup gen teams rule special := by
  cases rule
  case POINTS => rfl
  case GOAL_DIFFERENCE => rfl
  case GOALS_FOR => rfl
  case WINS => rfl
  case AWAY_GOALS_FOR => rfl
  case RANDOM =>
    have h1 : TablePy.sortGroup gen teams .RANDOM special =
        TablePy.sortGroupBasic teams .RANDOM := rfl
    have h2 : StandingsPy.sortGroup gen teams .RANDOM special =
        StandingsPy.sortGroupBasic teams .RANDOM := rfl
    rw [h1, h2]
    exact sortGroupBasic_eq teams hhex .RANDOM
  case HEAD_TO_HEAD =>
    cases special with
    | none => rfl
    | some l =>
      cases l with
      | nil => rfl
      | cons s ss =>
        simp only [TablePy.sortGroup, StandingsPy.sortGroup]
        have hmm : TablePy.mutualMatches teams = StandingsPy.mutualMatches teams := rfl
        rw [hmm, createTable_eq]
        rw [tiebreakerSortInner_eq (s :: ss) _
          (createStandings_uuid_hex gen hgen (pyDedup (StandingsPy.mutualMatches teams)))]

theorem processGroups_eq_of (gen : String → List Char)
    (special : Option (List Tiebreaker)) (ts : List Tiebreaker)
    (H : ∀ teams, (∀ t ∈ teams, isHex5 t.uuid) →
      TablePy.tiebreakerSort gen teams special ts =
        StandingsPy.tiebreakerSort gen teams special ts) :
    ∀ gs : List (List Team), (∀ g ∈ gs, ∀ t ∈ g, isHex5 t.uuid) →
      TablePy.processGroups gen special ts gs =
        StandingsPy.processGroups gen special ts gs := by
  intro gs
  induction gs with
  | nil => intro _; rw [tpProcessGroups_nil, processGroups_nil]
  | cons g gs ih =>
    intro hx
    rw [tpProcessGroups_cons, processGroups_cons]
    rw [ih (fun g' hg' => hx g' (List.mem_cons_of_mem g hg'))]
    by_cases hg : 1 < g.length
    · rw [if_pos hg, if_pos hg, H g (hx g (List.mem_cons_self g gs))]
    · rw [if_neg hg, if_neg hg]

/-- `tiebreaker_sort` computes the same result in both files. -/
theorem tiebreakerSort_eq (gen : String → List Char) (tbs : List Tiebreaker) :
    ∀ (teams : List Team) (special : Option (List Tiebreaker)),
      (∀ n, isHex5 (gen n)) → (∀ t ∈ teams, isHex5 t.uuid) →
      TablePy.tiebreakerSort gen teams special tbs =
        StandingsPy.tiebreakerSort gen teams special tbs := by
  induction tbs with
  | nil => intro teams special _ _; rw [tpSort_nil, tiebreakerSort_nil]
  | cons t ts ih =>
    intro teams special hgen hhex
    rw [tpSort_cons, tiebreakerSort_cons, sortGroup_eq gen teams t special hgen hhex]
    cases hsg : StandingsPy.sortGroup gen teams t special with
    | error e => rfl
    | ok gs =>
      have hflat := sortGroup_flatten_mem gen teams t special gs hsg
      have hmem : ∀ g ∈ gs, ∀ t' ∈ g, isHex5 t'.uuid := by
        intro g hg t' ht'
        exact hhex t' (hflat t' (List.mem_flatten.mpr ⟨g, hg, ht'⟩))
      show (Except.ok gs >>= _) = (Except.ok gs >>= _)
      simp only [Bind.bind, Except.bind]
      exact processGroups_eq_of gen special ts
        (fun teams' hhex' => ih teams' special hgen hhex') gs hmem

/-! ## C10 -/

/-- C10: the core functions of `table.py` compute the same results as their
counterparts in `standings.py` — `create_table` returns the aggregate of
`create_standings` as a name-keyed mapping (same teams, in the same order,
keyed by their names), and, on teams whose tokens are five-character
lowercase-hex uuid strings (as `uuid.uuid4().hex[:5]` produces),
`sort_group` and `tiebreaker_sort` agree; in particular the RANDOM rule's
descending comparison of uuid *strings* in `table.py` orders teams
identically to `standings.py`'s descending comparison of `int(uuid, 16)`
values. -/
theorem claim_C10 (gen : String → List Char) (ms : List Match)
    (teams : List Team) (rule : Tiebreaker) (special : Option (List Tiebreaker))
    (tbs : List Tiebreaker)
    (hgen : ∀ n, isHex5 (gen n)) (hhex : ∀ t ∈ teams, isHex5 t.uuid) :
    ((TablePy.createTable gen ms).map Prod.snd = StandingsPy.createStandings gen ms) ∧
    (∀ p ∈ TablePy.createTable gen ms, p.2.name = p.1) ∧
    TablePy.sortGroup gen teams rule special =
      StandingsPy.sortGroup gen teams rule special ∧
    TablePy.tiebreakerSort gen teams special tbs =
      StandingsPy.tiebreakerSort gen teams special tbs := by
  refine ⟨createTable_eq gen ms, ?_, sortGroup_eq gen teams rule special hgen hhex,
    tiebreakerSort_eq gen tbs teams special hgen hhex⟩
  intro p hp
  obtain ⟨t, -, rfl⟩ := List.mem_map.mp hp
  rfl

/-- Witness for C10 at a concrete input. -/
theorem claim_C10_witness :
    (∀ n, isHex5 (gen0 n)) ∧ (∀ t ∈ ([tA, tB] : List Team), isHex5 t.uuid) ∧
    (((TablePy.createTable gen0 [mAB]).map Prod.snd =
        StandingsPy.createStandings gen0 [mAB]) ∧
      (∀ p ∈ TablePy.createTable gen0 [mAB], p.2.name = p.1) ∧
      TablePy.sortGroup gen0 [tA, tB] .RANDOM none =
        StandingsPy.sortGroup gen0 [tA, tB] .RANDOM none ∧
      TablePy.tiebreakerSort gen0 [tA, tB] none [.POINTS] =
        StandingsPy.tiebreakerSort gen0 [tA, tB] none [.POINTS]) :=
  ⟨fun _ => show isHex5 ['0', '0', '0', '0', '0'] from by decide, by decide,
    claim_C10 gen0 [mAB] [tA, tB] .RANDOM none [.POINTS]
      (fun _ => show isHex5 ['0', '0', '0', '0', '0'] from by decide) (by decide)⟩
